import Mathlib

/-!
Verification development for the help-chat document indexer.

This file gives a shallow embedding of the indexing pipeline of
`src/help_chat/doc_indexer.py` and of the excerpt loader of
`src/help_chat/llm.py`, and settles the frozen claims about them.

External effects (file conversion, embedding encoding, timestamps, path
resolution) are supplied as explicit oracle arguments, so that every
definition is executable.  The sqlite connection is modelled as a pair of
a persisted table and a list of staged (pending) statements, applied
atomically on commit.
-/

namespace HelpChat

/-- A row of the `embeddings` table: file_path is the key (held separately),
the row carries file_hash, embedding_vector, last_updated, file_extension. -/
structure Row where
  file_hash : String
  embedding_vector : List Nat
  last_updated : String
  file_extension : String
deriving DecidableEq, Repr

/-- The `embeddings` table, keyed by file_path. -/
abbrev DB := List (String × Row)

/-- Association-list lookup (models a primary-key SELECT). -/
def alookup {β : Type} (p : String) : List (String × β) → Option β
  | [] => none
  | e :: t => if e.1 = p then some e.2 else alookup p t

/-- A DML statement staged on the cursor inside the open transaction. -/
inductive SqlOp
  | deleteRow (p : String)
  | insertRow (p : String) (r : Row)
  | updateRow (p : String) (r : Row)
deriving DecidableEq, Repr

/-- The file path a statement refers to. -/
def SqlOp.path : SqlOp → String
  | .deleteRow p => p
  | .insertRow p _ => p
  | .updateRow p _ => p

/-- Effect of one statement on the table contents. -/
def applyOp (db : DB) : SqlOp → DB
  | .deleteRow p => db.filter (fun e => !(e.1 == p))
  | .insertRow p r => db ++ [(p, r)]
  | .updateRow p r => db.map (fun e => if e.1 = p then (p, r) else e)

/-- A sqlite connection: the persisted table plus the statements staged in
the currently open transaction.  `execute` stages, `commit` applies all
staged statements atomically, rollback discards them. -/
structure Conn where
  persisted : DB
  pending : List SqlOp
deriving DecidableEq, Repr

/-- `cursor.execute` of a DML statement: staged, not yet persisted. -/
def Conn.execute (c : Conn) (op : SqlOp) : Conn :=
  ⟨c.persisted, c.pending ++ [op]⟩

/-- Observable events of one `_update_database` pass, in chronological
order: row removals for missing files, the one-time pool warm-up, progress
callbacks, staged insert/update statements, and per-file skips. -/
inductive Event
  | removedMissing (p : String)
  | warmupPools
  | progressCallback (p : String)
  | stagedInsert (p : String)
  | stagedUpdate (p : String)
  | skippedFile (p : String)
  | noChanges (p : String)
deriving DecidableEq, Repr

/-- Conversion outcome delivered by MarkItDown (inline or via the worker
pool): `_convert_file_subprocess` returns success / unsupported / error,
and the pool wait can additionally time out. -/
inductive ConvOutcome
  | success (text : String)
  | unsupported (msg : String)
  | error (msg : String)
  | timeout
deriving DecidableEq, Repr

/-- Encoding outcome delivered by `_encode_text_subprocess`: success or
error, and the pool wait can additionally time out. -/
inductive EncOutcome
  | success (emb : List Nat)
  | error (msg : String)
  | timeout
deriving DecidableEq, Repr

/-- The external world seen by `_generate_embedding` for one file: the
lowercased source suffix, the archive size (none models a stat error),
and the conversion and encoding outcomes. -/
structure FileWorld where
  ext : String
  archiveSize : Option Nat
  conv : ConvOutcome
  enc : EncOutcome

/-- `DocIndexer._ARCHIVE_EXTENSIONS`. -/
def ARCHIVE_EXTENSIONS : List String := [".zip", ".tar", ".gz", ".bz2", ".xz"]

/-- `DocIndexer._MAX_ARCHIVE_SIZE_BYTES` (50 MB). -/
def MAX_ARCHIVE_SIZE_BYTES : Nat := 50 * 1024 * 1024

/-- The fast inline conversion formats of `_generate_embedding`. -/
def FAST_FORMATS : List String := [".txt", ".md", ".json", ".csv", ".html", ".htm", ".xml"]

/-- Characters of a text. -/
abbrev Chars := List Char

/-- Python `str.strip()` on characters. -/
def stripL (l : Chars) : Chars :=
  ((l.dropWhile Char.isWhitespace).reverse.dropWhile Char.isWhitespace).reverse

/-- Python `str.strip()`. -/
def pyStrip (s : String) : String := String.mk (stripL s.toList)

/-- `DocIndexer._generate_embedding`, as a function of the file's external
world: oversized (or unstatable) archives are skipped, conversion runs
inline for fast formats and through the pool otherwise, empty or
whitespace-only text is skipped, then the text is encoded.  Returns the
embedding bytes, or none when the file must be skipped.  (The markdown
snapshot write is a filesystem effect modelled separately.) -/
def generateEmbedding (w : FileWorld) : Option (List Nat) :=
  if w.ext ∈ ARCHIVE_EXTENSIONS ∧
      w.archiveSize.getD (MAX_ARCHIVE_SIZE_BYTES + 1) > MAX_ARCHIVE_SIZE_BYTES then
    none
  else
    let textQ : Option String :=
      if w.ext ∈ FAST_FORMATS then
        match w.conv with
        | .success t => some t
        | _ => none
      else
        match w.conv with
        | .success t => some t
        | _ => none
    match textQ with
    | none => none
    | some t =>
      if pyStrip t = "" then none
      else
        match w.enc with
        | .success e => some e
        | _ => none

/-- One iteration of the per-file loop of `_update_database`: the staged
statements and the chronological events for this file.  `dbHashes` is the
path-to-hash map bulk-loaded before the loop; `gen` is the
`_generate_embedding` outcome; `ts` the fresh timestamp. -/
def processFile (dbHashes : List (String × String)) (gen : String → Option (List Nat))
    (ts : String → String) (f : String × String × String) : List SqlOp × List Event :=
  match alookup f.1 dbHashes with
  | none =>
    match gen f.1 with
    | none => ([], [Event.skippedFile f.1])
    | some emb => ([SqlOp.insertRow f.1 ⟨f.2.1, emb, ts f.1, f.2.2⟩],
                   [Event.progressCallback f.1, Event.stagedInsert f.1])
  | some dbh =>
    if dbh ≠ f.2.1 then
      match gen f.1 with
      | none => ([], [Event.skippedFile f.1])
      | some emb => ([SqlOp.updateRow f.1 ⟨f.2.1, emb, ts f.1, f.2.2⟩],
                     [Event.progressCallback f.1, Event.stagedUpdate f.1])
    else ([], [Event.noChanges f.1])

/-- Per-file step of the main loop, threading the connection and the event
trace. -/
def fileStep (dbHashes : List (String × String)) (gen : String → Option (List Nat))
    (ts : String → String) (acc : Conn × List Event) (f : String × String × String) :
    Conn × List Event :=
  let pe := processFile dbHashes gen ts f
  (pe.1.foldl Conn.execute acc.1, acc.2 ++ pe.2)

/-- Component-wise path representation (already resolved, as produced by
`Path.resolve()`). -/
abbrev PathC := List String

/-- A markdown snapshot tree: the snapshot files and the directories that
exist under the markdown root, as paths relative to it ( [] is the
markdown root itself). -/
structure MdTree where
  files : List PathC
  dirs : List PathC
deriving DecidableEq, Repr

/-- Is `d` a proper prefix of `e` (i.e. `e` lies strictly inside directory
`d`)? -/
def strictUnder (d e : PathC) : Bool :=
  d.isPrefixOf e && decide (d.length < e.length)

/-- Does `rmdir` succeed on `d`: the directory exists and contains no file
and no directory. -/
def isEmptyDir (d : PathC) (fs : MdTree) : Bool :=
  fs.files.all (fun f => !(strictUnder d f)) && fs.dirs.all (fun e => !(strictUnder d e))

/-- One `rmdir` attempt: some new tree on success, none on OSError
(missing or non-empty directory). -/
def rmdirTry (d : PathC) (fs : MdTree) : Option MdTree :=
  if d ∈ fs.dirs ∧ isEmptyDir d fs = true then
    some ⟨fs.files, fs.dirs.filter (fun e => !(e == d))⟩
  else none

/-- The loop body of `DocIndexer._prune_empty_markdown_dirs`: walk upward
from `cur` while strictly below the markdown root ([]), removing each
directory whose `rmdir` succeeds, stopping at the first failure.  The
fuel equals the length of the starting path, which bounds the number of
iterations. -/
def pruneAux : Nat → PathC → MdTree → MdTree
  | 0, _, fs => fs
  | fuel + 1, cur, fs =>
    if cur = [] then fs
    else
      match rmdirTry cur fs with
      | some fs1 => pruneAux fuel cur.dropLast fs1
      | none => fs

/-- `DocIndexer._prune_empty_markdown_dirs`. -/
def pruneEmptyMarkdownDirs (cur : PathC) (fs : MdTree) : MdTree :=
  pruneAux cur.length cur fs

/-- `pathlib.PurePath.suffix` on the characters of the name: the
extension from the last dot, provided that dot is neither the first nor
the last character. -/
def pySuffixL (cs : List Char) : List Char :=
  match cs.reverse.findIdx? (fun c => c == '.') with
  | none => []
  | some j =>
    let i := cs.length - 1 - j
    if 0 < i ∧ i < cs.length - 1 then cs.drop i else []

/-- `pathlib.PurePath.with_suffix` on characters: drop the current suffix
of the name and append the new one. -/
def pyWithSuffixL (cs newSuffix : List Char) : List Char :=
  cs.take (cs.length - (pySuffixL cs).length) ++ newSuffix

/-- The snapshot file name on characters, as computed by both
`_generate_embedding` and `_delete_markdown_snapshot`:
`with_suffix(suffix + ".md")` when the source has a suffix, else
`with_suffix(".md")`. -/
def snapshotFileNameL (cs : List Char) : List Char :=
  if pySuffixL cs ≠ [] then pyWithSuffixL cs (pySuffixL cs ++ ".md".toList)
  else pyWithSuffixL cs ".md".toList

/-- `pathlib.PurePath.suffix`. -/
def pySuffix (name : String) : String := String.mk (pySuffixL name.toList)

/-- `pathlib.PurePath.with_suffix`. -/
def pyWithSuffix (name newSuffix : String) : String :=
  String.mk (pyWithSuffixL name.toList newSuffix.toList)

/-- The snapshot file name for a source file name. -/
def snapshotFileName (name : String) : String := String.mk (snapshotFileNameL name.toList)

/-- Last component of a path ("" for the root). -/
def lastName (p : PathC) : String := p.getLastD ""

/-- The snapshot path used by the WRITE side (`_generate_embedding`,
lines 494-507), relative to the markdown root: the source relative to
root, falling back to just the file name when the source lies outside
root, with the snapshot suffix applied. -/
def snapshotRelPath (root source : PathC) : PathC :=
  let rel := if root.isPrefixOf source then source.drop root.length else [lastName source]
  rel.dropLast ++ [snapshotFileName (lastName rel)]

/-- The snapshot path used by the DELETE side (`_delete_markdown_snapshot`,
lines 365-383): none when the source lies outside root (the function
returns without deleting anything). -/
def deleteSnapshotRelPath (root source : PathC) : Option PathC :=
  if root.isPrefixOf source then
    let rel := source.drop root.length
    some (rel.dropLast ++ [snapshotFileName (lastName rel)])
  else none

/-- `DocIndexer._delete_markdown_snapshot`: resolve the snapshot path (or
return unchanged when the source is outside root), unlink it if present,
then prune newly-empty parent directories. -/
def deleteMarkdownSnapshot (root source : PathC) (fs : MdTree) : MdTree :=
  match deleteSnapshotRelPath root source with
  | none => fs
  | some snap =>
    if snap ∈ fs.files then
      pruneEmptyMarkdownDirs snap.dropLast
        ⟨fs.files.filter (fun f => !(f == snap)), fs.dirs⟩
    else fs

/-- Result of one `_update_database` call: what the caller sees, the
persisted table after the call, the markdown tree after the
remove-missing-files phase, and the chronological event trace. -/
structure UpdateOutcome where
  result : Except String Unit
  persisted : DB
  mdFS : MdTree
  events : List Event

/-- The paths staged for removal: stored paths that did not appear in the
fresh scan. -/
def removedPaths (db0 : DB) (fileList : List (String × String × String)) : List String :=
  (db0.map (fun e => e.1)).filter (fun p => decide (p ∉ fileList.map (fun f => f.1)))

/-- The connection state at the end of the `_update_database` loop (before
commit): the deletions for missing files followed by the per-file
statements, all staged in the single open transaction. -/
def stagedConn (db0 : DB) (fileList : List (String × String × String))
    (gen : String → Option (List Nat)) (ts : String → String) : Conn × List Event :=
  let dbHashes := db0.map (fun e => (e.1, e.2.file_hash))
  let toRemove := removedPaths db0 fileList
  let c1 := toRemove.foldl (fun c p => c.execute (SqlOp.deleteRow p)) ⟨db0, []⟩
  let ev1 := toRemove.map Event.removedMissing ++ [Event.warmupPools]
  fileList.foldl (fileStep dbHashes gen ts) (c1, ev1)

/-- `DocIndexer._update_database`: bulk-load the stored hashes, delete
rows and snapshots for files no longer scanned, warm up the pools, process
each scanned file (insert / update / skip / no-op), and finally commit the
single transaction; on commit failure roll back and surface the error.
`resolve` models `Path.resolve()`, `commitOk` whether commit succeeds. -/
def updateDatabase (db0 : DB) (fs0 : MdTree) (fileList : List (String × String × String))
    (gen : String → Option (List Nat)) (ts : String → String)
    (resolve : String → PathC) (rootC : PathC) (commitOk : Bool) : UpdateOutcome :=
  let toRemove := removedPaths db0 fileList
  let fs1 := toRemove.foldl (fun fs p => deleteMarkdownSnapshot rootC (resolve p) fs) fs0
  let fin := stagedConn db0 fileList gen ts
  if commitOk then
    ⟨Except.ok (), fin.1.pending.foldl applyOp fin.1.persisted, fs1, fin.2⟩
  else
    ⟨Except.error "commit failed", fin.1.persisted, fs1, fin.2⟩

/-- `DocIndexer._CONVERSION_STARTUP_BUFFER` (seconds). -/
def CONVERSION_STARTUP_BUFFER : Nat := 15

/-- `DocIndexer._EMBEDDING_STARTUP_BUFFER` (seconds). -/
def EMBEDDING_STARTUP_BUFFER : Nat := 20

/-- The warm flag and pool handle of one worker pool (conversion or
embedding): `warm` mirrors `_*_warmup_used`, `executor` whether the
`ProcessPoolExecutor` handle is currently held. -/
structure PoolPair where
  warm : Bool
  executor : Bool
deriving DecidableEq, Repr

/-- `_ensure_conversion_executor` / `_ensure_embedding_executor`: create
the pool handle if it was dropped. -/
def ensureExecutor (st : PoolPair) : PoolPair := ⟨st.warm, true⟩

/-- `DocIndexer._convert_to_markdown`: submit to the conversion pool and
wait with the base timeout plus the startup buffer while cold.  Returns
the converted text (none on skip), the new pool state, and the effective
timeout that was used.  A timeout abandons the pool (drops the handle and
resets the warm flag). -/
def convertToMarkdown (st : PoolPair) (timeout : Nat) (o : ConvOutcome) :
    Option String × PoolPair × Nat :=
  let stE := ensureExecutor st
  let eff := if stE.warm then timeout else timeout + CONVERSION_STARTUP_BUFFER
  match o with
  | .success t => (some t, ⟨true, true⟩, eff)
  | .unsupported _ => (none, stE, eff)
  | .error _ => (none, stE, eff)
  | .timeout => (none, ⟨false, false⟩, eff)

/-- `DocIndexer._encode_with_timeout`: the embedding-pool counterpart of
`convertToMarkdown`, with the embedding startup buffer. -/
def encodeWithTimeout (st : PoolPair) (timeout : Nat) (o : EncOutcome) :
    Option (List Nat) × PoolPair × Nat :=
  let stE := ensureExecutor st
  let eff := if stE.warm then timeout else timeout + EMBEDDING_STARTUP_BUFFER
  match o with
  | .success e => (some e, ⟨true, true⟩, eff)
  | .error _ => (none, stE, eff)
  | .timeout => (none, ⟨false, false⟩, eff)

/-- The two pools of a `DocIndexer` instance. -/
structure PoolsState where
  conversionWarmupUsed : Bool
  conversionExecutor : Bool
  embeddingWarmupUsed : Bool
  embeddingExecutor : Bool
deriving DecidableEq, Repr

/-- Whether the warm-up task submitted by `_warmup_process_pools`
completes within the startup-buffer wait (failure covers both an error
result and a timeout; the surrounding try/except swallows either). -/
inductive WarmupOutcome
  | success
  | failure
deriving DecidableEq, Repr

/-- A task submitted to one of the worker pools. -/
inductive SubmittedTask
  | encodeTextTask
  | convertFileTask
deriving DecidableEq, Repr

/-- `DocIndexer._warmup_process_pools` (lines 791-813): ensures the
embedding executor, submits one warm-up encoding task to it, and marks the
embedding pool warm when the task succeeds; a failure is swallowed.
Returns the new pools state together with the list of warm-up tasks that
were submitted. -/
def warmupProcessPools (st : PoolsState) (o : WarmupOutcome) :
    PoolsState × List SubmittedTask :=
  let st1 : PoolsState :=
    ⟨st.conversionWarmupUsed, st.conversionExecutor, st.embeddingWarmupUsed, true⟩
  match o with
  | .success =>
    (⟨st1.conversionWarmupUsed, st1.conversionExecutor, true, st1.embeddingExecutor⟩,
     [SubmittedTask.encodeTextTask])
  | .failure => (st1, [SubmittedTask.encodeTextTask])

/-- The sentinel marker of a managed temp directory. -/
def sentinelName : String := ".help_chat_temp"

/-- `DocIndexer._LOG_FILE_NAME`, the legacy debug-log artifact. -/
def logFileName : String := "program_debug.log"

/-- The markdown snapshot subdirectory. -/
def markdownName : String := "_markdown"

/-- Failures of `_prepare_temp_path`. -/
inductive PrepError
  | notADirectory
  | unmanagedDirectory
deriving DecidableEq, Repr

/-- Filesystem mutations performed by `_prepare_temp_path`, in order. -/
inductive FsAction
  | mkdirTemp
  | touchSentinel
  | removeItem (name : String)
  | mkdirMarkdown
deriving DecidableEq, Repr

/-- Which top-level entries the cleanup loop of `_prepare_temp_path`
keeps: the sentinel, the `_markdown` directory, and (checked after the
legacy-log removal) the entry whose name matches the protected embeddings
basename. -/
def keepEntry (protectedName : Option String) (item : String) : Bool :=
  item == sentinelName || item == markdownName ||
    (!(item == logFileName) && protectedName == some item)

/-- `DocIndexer._prepare_temp_path` over a top-level directory listing.
`tempExists`/`tempIsDir` describe `temp_path`; `entries` its listing;
`tempPath`/`embPath` the resolved component paths of `temp_path` and
`embeddings_path`.  Returns the resulting listing (or the error raised
before any mutation) together with the filesystem actions performed. -/
def prepareTempPath (tempExists tempIsDir : Bool) (entries : List String)
    (tempPath embPath : PathC) : Except PrepError (List String) × List FsAction :=
  if tempExists then
    if !tempIsDir then (Except.error PrepError.notADirectory, [])
    else if sentinelName ∈ entries then prepareCleanup entries [] tempPath embPath
    else
      let removable := entries.filter (fun i => i == logFileName)
      if removable.length ≠ entries.length then
        (Except.error PrepError.unmanagedDirectory, [])
      else
        prepareCleanup (entries.filter (fun i => !(i == logFileName)) ++ [sentinelName])
          (removable.map FsAction.removeItem ++ [FsAction.touchSentinel]) tempPath embPath
  else
    prepareCleanup [sentinelName] [FsAction.mkdirTemp, FsAction.touchSentinel]
      tempPath embPath
where
  /-- The cleanup phase (lines 299-339): compute the protected embeddings
  basename when `embeddings_path` lies inside `temp_path`, delete every
  non-kept entry (the legacy log always included), and ensure `_markdown`
  exists. -/
  prepareCleanup (entries1 : List String) (acts1 : List FsAction)
      (tempPath embPath : PathC) : Except PrepError (List String) × List FsAction :=
    let protectedName : Option String :=
      if tempPath.isPrefixOf embPath then some (lastName embPath) else none
    let entries2 := entries1.filter (keepEntry protectedName)
    let acts2 := (entries1.filter (fun i => !(keepEntry protectedName i))).map FsAction.removeItem
    let entries3 := if markdownName ∈ entries2 then entries2 else entries2 ++ [markdownName]
    (Except.ok entries3, acts1 ++ acts2 ++ [FsAction.mkdirMarkdown])

/-- Python `str.rstrip()`. -/
def rstripL (l : Chars) : Chars :=
  (l.reverse.dropWhile Char.isWhitespace).reverse

/-- Python `text.replace("\r\n", "\n")`. -/
def normalizeCRLF : Chars → Chars
  | '\r' :: '\n' :: rest => '\n' :: normalizeCRLF rest
  | c :: rest => c :: normalizeCRLF rest
  | [] => []

/-- A regex `\w` character: alphanumeric or underscore. -/
def wordChar (c : Char) : Bool := c.isAlphanum || c == '_'

/-- `re.findall(r"\w+", s)`: maximal runs of word characters.  `cur` is
the current run, reversed. -/
def tokensAux (cur : Chars) : Chars → List Chars
  | [] => if cur = [] then [] else [cur.reverse]
  | c :: rest =>
    if wordChar c then tokensAux (c :: cur) rest
    else if cur = [] then tokensAux [] rest
    else cur.reverse :: tokensAux [] rest

/-- The query keywords of `_load_markdown_excerpt`: the `\w+` tokens of
the lowercased query that are longer than 3 characters. -/
def queryKeywords (query : Chars) : List Chars :=
  (tokensAux [] (query.map Char.toLower)).filter (fun t => t.length > 3)

/-- Python `hay.find(needle)` from index `i`. -/
def findSubAux (needle : Chars) : Chars → Nat → Option Nat
  | [], i => if needle.isPrefixOf [] then some i else none
  | c :: t, i => if needle.isPrefixOf (c :: t) then some i else findSubAux needle t (i + 1)

/-- Python `hay.find(needle)`: index of the first occurrence. -/
def findSub (needle hay : Chars) : Option Nat := findSubAux needle hay 0

/-- The keyword-location loop of `_load_markdown_excerpt`: the first
keyword (in keyword order) that occurs in the text gives the match
index. -/
def firstKeywordMatch (kws : List Chars) (hay : Chars) : Option Nat :=
  match kws with
  | [] => none
  | k :: rest =>
    match findSub k hay with
    | some i => some i
    | none => firstKeywordMatch rest hay

/-- The window construction of the keyword branch: slice
`normalized[start:end]` with `start = max(0, idx - half)` and
`end = min(len, idx + half)`, with an ellipsis prepended when the window
does not start at 0 and appended when it does not reach the end. -/
def windowExcerpt (normalized : Chars) (idx half : Nat) : Chars :=
  let s := idx - half
  let e := min normalized.length (idx + half)
  let w := (normalized.take e).drop s
  let w1 := if s > 0 then '…' :: w else w
  if e < normalized.length then w1 ++ ['…'] else w1

/-- The final cap of `_load_markdown_excerpt` (lines 378-380): after
stripping, an excerpt longer than `limit` is cut to its first `limit`
characters, right-stripped, with an ellipsis appended. -/
def finalCapL (limit : Nat) (e : Chars) : Chars :=
  if e.length > limit then rstripL (e.take limit) ++ ['…'] else e

/-- `HelpChat._load_markdown_excerpt` (llm.py lines 337-382) on the text
read from the snapshot: strip, return empty for blank text, normalize
line endings, locate the first query-keyword occurrence in the lowercased
text, take either the first `2*limit` characters (no keyword found) or a
window of half-width `max(limit//2, 1)` around the match with edge
ellipses, then strip and apply the final `limit` cap. -/
def loadMarkdownExcerpt (rawText query : Chars) (limit : Nat) : Chars :=
  let text := stripL rawText
  if text = [] then []
  else
    let normalized := normalizeCRLF text
    let lowerText := normalized.map Char.toLower
    let kws := queryKeywords query
    let excerpt :=
      match firstKeywordMatch kws lowerText with
      | none => normalized.take (limit * 2)
      | some idx => windowExcerpt normalized idx (max (limit / 2) 1)
    finalCapL limit (stripL excerpt)

/-- Concatenation of the per-element lists, in order (used to decompose
the loop folds). -/
def concatMap {α β : Type} (g : α → List β) : List α → List β
  | [] => []
  | a :: t => g a ++ concatMap g t

/-- The path announced by a progress-callback event, none for any other
event. -/
def callbackPath : Event → Option String
  | .progressCallback p => some p
  | _ => none

/-- Is the event-after-a-callback check satisfied: the trace continues
with the staging statement for the same path. -/
def cbHead (p : String) : List Event → Bool
  | Event.stagedInsert q :: _ => p == q
  | Event.stagedUpdate q :: _ => p == q
  | _ => false

/-- Every progress callback in the trace is immediately followed by the
staged insert or update statement for the same path. -/
def cbOk : List Event → Bool
  | [] => true
  | Event.progressCallback p :: rest => cbHead p rest && cbOk rest
  | _ :: rest => cbOk rest

/-- Modelled from the claim wording of C4: every progress callback occurs
strictly after the staged insert/update statement for its path.  (Stated
from the spec, to be compared against the code's trace.) -/
def callbackAfterRowStaged (evs : List Event) : Prop :=
  ∀ i p, evs.get? i = some (Event.progressCallback p) →
    ∃ j, j < i ∧ (evs.get? j = some (Event.stagedInsert p) ∨
                  evs.get? j = some (Event.stagedUpdate p))

/-- Does the per-file loop reach a successful insert/update for this scan
entry: the file is new or changed, and `_generate_embedding` succeeded. -/
def successfullyIndexed (dbHashes : List (String × String))
    (gen : String → Option (List Nat)) (f : String × String × String) : Bool :=
  match alookup f.1 dbHashes with
  | none => (gen f.1).isSome
  | some dbh => if dbh ≠ f.2.1 then (gen f.1).isSome else false

/-- The top-level listing left by a successful cleanup phase of
`_prepare_temp_path` (same computation as `prepareTempPath.prepareCleanup`,
exposed for iteration). -/
def preparedEntries (entries : List String) (tempPath embPath : PathC) : List String :=
  let protectedName : Option String :=
    if tempPath.isPrefixOf embPath then some (lastName embPath) else none
  let entries2 := entries.filter (keepEntry protectedName)
  if markdownName ∈ entries2 then entries2 else entries2 ++ [markdownName]

/-! ### Decomposition of the `_update_database` loop -/

theorem foldl_execute_eq (ops : List SqlOp) (c : Conn) :
    ops.foldl Conn.execute c = ⟨c.persisted, c.pending ++ ops⟩ := by
  induction ops generalizing c with
  | nil => simp
  | cons op t ih => rw [List.foldl_cons, ih]; simp [Conn.execute]

theorem foldl_deleteRows_eq (ps : List String) (c : Conn) :
    ps.foldl (fun c p => c.execute (SqlOp.deleteRow p)) c
      = ⟨c.persisted, c.pending ++ ps.map SqlOp.deleteRow⟩ := by
  induction ps generalizing c with
  | nil => simp
  | cons p t ih => rw [List.foldl_cons, ih]; simp [Conn.execute]

theorem fileStep_foldl_eq (dh : List (String × String)) (gen : String → Option (List Nat))
    (ts : String → String) (fl : List (String × String × String)) (c : Conn) (ev : List Event) :
    fl.foldl (fileStep dh gen ts) (c, ev)
      = ((concatMap (fun f => (processFile dh gen ts f).1) fl).foldl Conn.execute c,
         ev ++ concatMap (fun f => (processFile dh gen ts f).2) fl) := by
  induction fl generalizing c ev with
  | nil => simp [concatMap]
  | cons f t ih => simp [concatMap, fileStep, ih, List.foldl_append]

theorem stagedConn_eq (db0 : DB) (fl : List (String × String × String))
    (gen : String → Option (List Nat)) (ts : String → String) :
    stagedConn db0 fl gen ts
      = (⟨db0, (removedPaths db0 fl).map SqlOp.deleteRow
            ++ concatMap
                (fun f => (processFile (db0.map (fun e => (e.1, e.2.file_hash))) gen ts f).1) fl⟩,
         (removedPaths db0 fl).map Event.removedMissing
           ++ Event.warmupPools
           :: concatMap
                (fun f => (processFile (db0.map (fun e => (e.1, e.2.file_hash))) gen ts f).2) fl) := by
  simp only [stagedConn]
  rw [foldl_deleteRows_eq, fileStep_foldl_eq]
  simp [foldl_execute_eq]

/-- C2: all vector-store row mutations of one reindex call are staged in
a single transaction and applied to the persisted table only by the final
commit; when the commit fails, the transaction is rolled back (the
persisted table is exactly the initial one) and the error propagates to
the caller, so the store never holds a partial subset of the pass's
mutations. -/
theorem singleTransactionCommitOrRollback (db0 : DB) (fs0 : MdTree)
    (fl : List (String × String × String)) (gen : String → Option (List Nat))
    (ts : String → String) (resolve : String → PathC) (rootC : PathC) :
    ((updateDatabase db0 fs0 fl gen ts resolve rootC true).result = Except.ok () ∧
     (updateDatabase db0 fs0 fl gen ts resolve rootC true).persisted
       = (stagedConn db0 fl gen ts).1.pending.foldl applyOp db0) ∧
    ((updateDatabase db0 fs0 fl gen ts resolve rootC false).result
       = Except.error "commit failed" ∧
     (updateDatabase db0 fs0 fl gen ts resolve rootC false).persisted = db0) := by
  simp only [updateDatabase]
  rw [stagedConn_eq]
  simp

theorem mem_concatMap {α β : Type} (g : α → List β) (l : List α) (b : β) :
    b ∈ concatMap g l ↔ ∃ a ∈ l, b ∈ g a := by
  induction l with
  | nil => simp [concatMap]
  | cons x t ih => simp [concatMap, ih]

theorem processFile_events_cases (dh : List (String × String))
    (gen : String → Option (List Nat)) (ts : String → String) (f : String × String × String) :
    (processFile dh gen ts f).2 = [Event.skippedFile f.1] ∨
    (processFile dh gen ts f).2 = [Event.noChanges f.1] ∨
    (processFile dh gen ts f).2 = [Event.progressCallback f.1, Event.stagedInsert f.1] ∨
    (processFile dh gen ts f).2 = [Event.progressCallback f.1, Event.stagedUpdate f.1] := by
  unfold processFile
  rcases alookup f.1 dh with _ | dbh
  · rcases gen f.1 with _ | emb <;> simp
  · rcases gen f.1 with _ | emb <;> by_cases h3 : dbh ≠ f.2.1 <;> simp [h3]

theorem processFile_no_warmup (dh : List (String × String))
    (gen : String → Option (List Nat)) (ts : String → String) (f : String × String × String) :
    Event.warmupPools ∉ (processFile dh gen ts f).2 := by
  rcases processFile_events_cases dh gen ts f with h | h | h | h <;> rw [h] <;> simp

/-- C6: for each worker pool, a submitted task is waited on with the base
timeout plus the pool's startup buffer while cold and with the base
timeout alone once warm; a task success sets the warm flag; a timeout
resets the warm flag and drops the pool handle, and the next submission
recreates the pool and pays the startup buffer again. -/
theorem poolTimeoutBudgetAndAbandonment (st : PoolPair) (t : Nat) :
    ((∀ o, (convertToMarkdown st t o).2.2
        = if st.warm then t else t + CONVERSION_STARTUP_BUFFER) ∧
     (∀ txt, (convertToMarkdown st t (ConvOutcome.success txt)).2.1.warm = true) ∧
     (convertToMarkdown st t ConvOutcome.timeout).2.1 = ⟨false, false⟩ ∧
     (∀ t2 o2, (convertToMarkdown (convertToMarkdown st t ConvOutcome.timeout).2.1 t2 o2).2.2
        = t2 + CONVERSION_STARTUP_BUFFER) ∧
     (ensureExecutor (convertToMarkdown st t ConvOutcome.timeout).2.1).executor = true) ∧
    ((∀ o, (encodeWithTimeout st t o).2.2
        = if st.warm then t else t + EMBEDDING_STARTUP_BUFFER) ∧
     (∀ emb, (encodeWithTimeout st t (EncOutcome.success emb)).2.1.warm = true) ∧
     (encodeWithTimeout st t EncOutcome.timeout).2.1 = ⟨false, false⟩ ∧
     (∀ t2 o2, (encodeWithTimeout (encodeWithTimeout st t EncOutcome.timeout).2.1 t2 o2).2.2
        = t2 + EMBEDDING_STARTUP_BUFFER) ∧
     (ensureExecutor (encodeWithTimeout st t EncOutcome.timeout).2.1).executor = true) := by
  refine ⟨⟨fun o => ?_, fun txt => rfl, rfl, fun t2 o2 => ?_, rfl⟩,
          ⟨fun o => ?_, fun emb => rfl, rfl, fun t2 o2 => ?_, rfl⟩⟩
  · cases o <;> simp [convertToMarkdown, ensureExecutor]
  · cases o2 <;> simp [convertToMarkdown, ensureExecutor]
  · cases o <;> simp [encodeWithTimeout, ensureExecutor]
  · cases o2 <;> simp [encodeWithTimeout, ensureExecutor]

/-- C5 counterexample: at a fresh indexer state, `_warmup_process_pools`
submits no warm-up task to the conversion pool and leaves the conversion
warm flag untouched, refuting that a warm-up task is submitted to both
worker pools. -/
theorem warmupBothPools_counterexample :
    SubmittedTask.convertFileTask
        ∉ (warmupProcessPools ⟨false, false, false, false⟩ WarmupOutcome.success).2 ∧
    (warmupProcessPools ⟨false, false, false, false⟩ WarmupOutcome.success).1.conversionWarmupUsed
        = false ∧
    (warmupProcessPools ⟨false, false, false, false⟩ WarmupOutcome.success).1.conversionExecutor
        = false := by
  decide

/-- C5 (amended): before per-file processing begins (after the
missing-file removals), a one-time warm-up task is submitted to the
embedding worker pool only; on success it marks the embedding pool warm,
on failure the reindex continues with the state otherwise unchanged, and
the conversion pool receives no warm-up at all. -/
theorem warmupEmbeddingPoolOnly (st : PoolsState) (o : WarmupOutcome) :
    (warmupProcessPools st o).2 = [SubmittedTask.encodeTextTask] ∧
    (warmupProcessPools st o).1.conversionWarmupUsed = st.conversionWarmupUsed ∧
    (warmupProcessPools st o).1.conversionExecutor = st.conversionExecutor ∧
    (warmupProcessPools st o).1.embeddingExecutor = true ∧
    (o = WarmupOutcome.success → (warmupProcessPools st o).1.embeddingWarmupUsed = true) ∧
    (o = WarmupOutcome.failure →
       (warmupProcessPools st o).1.embeddingWarmupUsed = st.embeddingWarmupUsed) ∧
    (∀ (db0 : DB) (fs0 : MdTree) (fl : List (String × String × String))
        (gen : String → Option (List Nat)) (ts : String → String)
        (resolve : String → PathC) (rootC : PathC) (commitOk : Bool),
      ∃ pre post,
        (updateDatabase db0 fs0 fl gen ts resolve rootC commitOk).events
            = pre ++ Event.warmupPools :: post ∧
        (∀ e ∈ pre, ∃ q, e = Event.removedMissing q) ∧
        Event.warmupPools ∉ pre ∧ Event.warmupPools ∉ post) := by
  refine ⟨by cases o <;> rfl, by cases o <;> rfl, by cases o <;> rfl, by cases o <;> rfl,
          fun h => by subst h; rfl, fun h => by subst h; rfl,
          fun db0 fs0 fl gen ts resolve rootC commitOk => ?_⟩
  refine ⟨(removedPaths db0 fl).map Event.removedMissing,
          concatMap (fun f =>
            (processFile (db0.map (fun e => (e.1, e.2.file_hash))) gen ts f).2) fl,
          ?_, ?_, ?_, ?_⟩
  · have h := stagedConn_eq db0 fl gen ts
    cases commitOk <;> simp [updateDatabase, h]
  · intro e he
    rcases List.mem_map.mp he with ⟨q, _, rfl⟩
    exact ⟨q, rfl⟩
  · intro hmem
    rcases List.mem_map.mp hmem with ⟨q, _, h⟩
    exact Event.noConfusion h
  · intro hmem
    rcases (mem_concatMap _ _ _).mp hmem with ⟨f, _, hf⟩
    exact processFile_no_warmup _ _ _ _ hf

/-- C5 witness: the amended warm-up behaviour at a fresh indexer state,
for both a successful and a failed warm-up task. -/
theorem warmupEmbeddingPoolOnly_witness :
    (warmupProcessPools ⟨false, false, false, false⟩ WarmupOutcome.success).2
        = [SubmittedTask.encodeTextTask] ∧
    (warmupProcessPools ⟨false, false, false, false⟩ WarmupOutcome.success).1.embeddingWarmupUsed
        = true ∧
    (warmupProcessPools ⟨false, false, false, false⟩ WarmupOutcome.failure).1.embeddingWarmupUsed
        = false :=
  ⟨(warmupEmbeddingPoolOnly ⟨false, false, false, false⟩ WarmupOutcome.success).1,
   (warmupEmbeddingPoolOnly ⟨false, false, false, false⟩ WarmupOutcome.success).2.2.2.2.1 rfl,
   (warmupEmbeddingPoolOnly ⟨false, false, false, false⟩ WarmupOutcome.failure).2.2.2.2.2.1 rfl⟩

/-- C7: calling `_prepare_temp_path` on a pre-existing directory without
the sentinel that contains any entry other than the legacy debug log
fails with the unmanaged-directory error and performs no filesystem
action at all. -/
theorem unmanagedDirectoryRefusal (entries : List String) (tempPath embPath : PathC)
    (e : String) (hs : sentinelName ∉ entries) (he : e ∈ entries) (hne : e ≠ logFileName) :
    prepareTempPath true true entries tempPath embPath
      = (Except.error PrepError.unmanagedDirectory, []) := by
  have hlt : (entries.filter (fun i => i == logFileName)).length < entries.length := by
    refine List.length_filter_lt_length_iff_exists.mpr ⟨e, he, ?_⟩
    simp [hne]
  unfold prepareTempPath
  simp only [if_true, Bool.not_true, Bool.false_eq_true, if_false, reduceIte]
  rw [if_neg hs, if_pos (Nat.ne_of_lt hlt)]

/-- C7 witness: a managed-looking check on a concrete unmanaged
directory containing one user file. -/
theorem unmanagedDirectoryRefusal_witness :
    prepareTempPath true true ["user.txt"] ["t"] ["e", "store.db"]
      = (Except.error PrepError.unmanagedDirectory, []) :=
  unmanagedDirectoryRefusal ["user.txt"] ["t"] ["e", "store.db"] "user.txt"
    (by decide) (by decide) (by decide)

/-! ### Snapshot path mapping (C9) -/

theorem take_append_pySuffixL (cs : List Char) :
    cs.take (cs.length - (pySuffixL cs).length) ++ pySuffixL cs = cs := by
  unfold pySuffixL
  cases h : cs.reverse.findIdx? (fun c => c == '.') with
  | none => simp
  | some j =>
    dsimp only
    by_cases hc : 0 < cs.length - 1 - j ∧ cs.length - 1 - j < cs.length - 1
    · rw [if_pos hc, List.length_drop, Nat.sub_sub_self (by omega), List.take_append_drop]
    · rw [if_neg hc]; simp

theorem snapshotFileNameL_eq (cs : List Char) :
    snapshotFileNameL cs = cs ++ ".md".toList := by
  unfold snapshotFileNameL
  by_cases h : pySuffixL cs ≠ []
  · rw [if_pos h]
    unfold pyWithSuffixL
    rw [← List.append_assoc, take_append_pySuffixL]
  · rw [if_neg h]
    push_neg at h
    unfold pyWithSuffixL
    rw [h]; simp

theorem snapshotFileName_eq_append (name : String) :
    snapshotFileName name = name ++ ".md" := by
  apply String.ext
  rw [String.data_append]
  exact snapshotFileNameL_eq name.toList

/-- C9 counterexample: for a source outside the root, the write side maps
the snapshot to the bare file name while the delete side resolves no
snapshot at all, so write and delete do not agree. -/
theorem snapshotWriteDeleteMismatch_counterexample :
    snapshotRelPath ["r"] ["x", "a.txt"] = ["a.txt.md"] ∧
    deleteSnapshotRelPath ["r"] ["x", "a.txt"] = none ∧
    deleteSnapshotRelPath ["r"] ["x", "a.txt"]
      ≠ some (snapshotRelPath ["r"] ["x", "a.txt"]) := by
  decide

/-- C9 (amended): the snapshot candidate is the markdown root joined with
the source's path relative to root, with the suffix changed to
`<original_suffix>.md` (always the source name followed by `.md`); write
and delete resolve to the same snapshot exactly when the source lies
inside root, while for a source outside root the write path falls back to
the bare file name and the delete path resolves no snapshot (performing
no deletion). -/
theorem snapshotPathMapping (root source : PathC) :
    (∀ name, snapshotFileName name = name ++ ".md") ∧
    (root.isPrefixOf source = true →
       snapshotRelPath root source
         = (source.drop root.length).dropLast
             ++ [lastName (source.drop root.length) ++ ".md"] ∧
       deleteSnapshotRelPath root source = some (snapshotRelPath root source)) ∧
    (root.isPrefixOf source = false →
       snapshotRelPath root source = [lastName source ++ ".md"] ∧
       deleteSnapshotRelPath root source = none) := by
  refine ⟨snapshotFileName_eq_append, fun h => ⟨?_, ?_⟩, fun h => ⟨?_, ?_⟩⟩
  · simp [snapshotRelPath, h, snapshotFileName_eq_append]
  · simp [snapshotRelPath, deleteSnapshotRelPath, h]
  · simp [snapshotRelPath, h, lastName, snapshotFileName_eq_append]
  · simp [deleteSnapshotRelPath, h]

/-- C9 witness: the agreeing mapping for a concrete nested source inside
root, and the bare-name fallback for a concrete source outside root. -/
theorem snapshotPathMapping_witness :
    snapshotRelPath ["r"] ["r", "docs", "note.txt"] = ["docs", "note.txt.md"] ∧
    deleteSnapshotRelPath ["r"] ["r", "docs", "note.txt"]
      = some (snapshotRelPath ["r"] ["r", "docs", "note.txt"]) ∧
    snapshotRelPath ["r"] ["elsewhere", "note.txt"] = ["note.txt.md"] := by
  refine ⟨?_, ((snapshotPathMapping ["r"] ["r", "docs", "note.txt"]).2.1 (by decide)).2, ?_⟩
  · have h := ((snapshotPathMapping ["r"] ["r", "docs", "note.txt"]).2.1 (by decide)).1
    rw [h]; decide
  · have h := ((snapshotPathMapping ["r"] ["elsewhere", "note.txt"]).2.2 (by decide)).1
    rw [h]; decide

/-! ### Temp workspace cleanup survivors (C8) -/

theorem mem_preparedEntries (entries : List String) (tempPath embPath : PathC) (e : String) :
    e ∈ preparedEntries entries tempPath embPath ↔
      (e = markdownName ∨
       (e ∈ entries ∧ (e = sentinelName ∨
          (e ≠ logFileName ∧ tempPath.isPrefixOf embPath = true ∧ e = lastName embPath)))) := by
  by_cases hpre : tempPath.isPrefixOf embPath = true
  · have hkeep : ∀ x, keepEntry (some (lastName embPath)) x = true ↔
        (x = sentinelName ∨ x = markdownName ∨ (x ≠ logFileName ∧ x = lastName embPath)) := by
      intro x
      simp only [keepEntry, Bool.or_eq_true, beq_iff_eq, Bool.and_eq_true,
        Bool.not_eq_true', beq_eq_false_iff_ne, Option.some.injEq,
        @eq_comm _ (lastName embPath)]
      tauto
    simp only [preparedEntries, hpre, if_true]
    split
    next hmd =>
      rw [List.mem_filter, hkeep]
      rw [List.mem_filter, hkeep] at hmd
      constructor
      · rintro ⟨he, h1 | h1 | h1⟩
        · exact Or.inr ⟨he, Or.inl h1⟩
        · exact Or.inl h1
        · exact Or.inr ⟨he, Or.inr ⟨h1.1, trivial, h1.2⟩⟩
      · rintro (rfl | ⟨he, h1 | h1⟩)
        · exact hmd
        · exact ⟨he, Or.inl h1⟩
        · exact ⟨he, Or.inr (Or.inr ⟨h1.1, h1.2.2⟩)⟩
    next hmd =>
      rw [List.mem_append, List.mem_filter, hkeep, List.mem_singleton]
      constructor
      · rintro (⟨he, h1 | h1 | h1⟩ | h1)
        · exact Or.inr ⟨he, Or.inl h1⟩
        · exact Or.inl h1
        · exact Or.inr ⟨he, Or.inr ⟨h1.1, trivial, h1.2⟩⟩
        · exact Or.inl h1
      · rintro (rfl | ⟨he, h1 | h1⟩)
        · exact Or.inr rfl
        · exact Or.inl ⟨he, Or.inl h1⟩
        · exact Or.inl ⟨he, Or.inr (Or.inr ⟨h1.1, h1.2.2⟩)⟩
  · have hkeep : ∀ x, keepEntry none x = true ↔ (x = sentinelName ∨ x = markdownName) := by
      intro x; simp [keepEntry]
    simp only [Bool.not_eq_true] at hpre
    simp only [preparedEntries, hpre, Bool.false_eq_true, if_false]
    split
    next hmd =>
      rw [List.mem_filter, hkeep]
      rw [List.mem_filter, hkeep] at hmd
      constructor
      · rintro ⟨he, h1 | h1⟩
        · exact Or.inr ⟨he, Or.inl h1⟩
        · exact Or.inl h1
      · rintro (rfl | ⟨he, h1 | h1⟩)
        · exact hmd
        · exact ⟨he, Or.inl h1⟩
        · exact absurd h1.2.1 (by simp [hpre])
    next hmd =>
      rw [List.mem_append, List.mem_filter, hkeep, List.mem_singleton]
      constructor
      · rintro (⟨he, h1 | h1⟩ | h1)
        · exact Or.inr ⟨he, Or.inl h1⟩
        · exact Or.inl h1
        · exact Or.inl h1
      · rintro (rfl | ⟨he, h1 | h1⟩)
        · exact Or.inr rfl
        · exact Or.inl ⟨he, Or.inl h1⟩
        · exact absurd h1.2.1 (by simp [hpre])

/-- C8 counterexample: with the vector store nested at
`temp/sub/store.db`, an unrelated top-level file named `store.db`
survives the cleanup (and the directory `sub` holding the real store
would be deleted), refuting that exactly the sentinel, `_markdown` and
the vector store's own file survive. -/
theorem prepareSurvivors_counterexample :
    (prepareTempPath true true [".help_chat_temp", "store.db", "sub"]
        ["t"] ["t", "sub", "store.db"]).1
      = Except.ok [".help_chat_temp", "store.db", "_markdown"] ∧
    ["t"].isPrefixOf ["t", "sub", "store.db"] = true ∧
    ¬ (∀ e ∈ [".help_chat_temp", "store.db", "_markdown"],
         e = sentinelName ∨ e = markdownName ∨ ["t", "sub", "store.db"] = ["t"] ++ [e]) :=
  ⟨rfl, rfl, by decide⟩

/-- C8 (amended): on a successful prepare over a managed temp directory
the surviving top-level entries are exactly the sentinel, `_markdown`,
and — only when the vector-store path resolves to inside the temp
directory — any top-level entry other than the legacy log whose name
equals the store file's basename; every other top-level entry, including
the legacy debug-log file, is removed.  In particular a store file that
is a direct child of temp_path survives arbitrarily many repeated
prepare calls. -/
theorem preparedWorkspaceSurvivors (entries : List String) (tempPath embPath : PathC)
    (b : String) (hs : sentinelName ∈ entries) :
    (prepareTempPath true true entries tempPath embPath).1
        = Except.ok (preparedEntries entries tempPath embPath) ∧
    (∀ e, e ∈ preparedEntries entries tempPath embPath ↔
       (e = markdownName ∨
        (e ∈ entries ∧ (e = sentinelName ∨
           (e ≠ logFileName ∧ tempPath.isPrefixOf embPath = true ∧ e = lastName embPath))))) ∧
    (embPath = tempPath ++ [b] → b ∈ entries → b ≠ logFileName →
       ∀ n, b ∈ (fun es => preparedEntries es tempPath embPath)^[n] entries) := by
  refine ⟨?_, fun e => mem_preparedEntries entries tempPath embPath e, ?_⟩
  · unfold prepareTempPath
    rw [if_pos rfl]
    simp only [Bool.not_true, Bool.false_eq_true, if_false, reduceIte]
    rw [if_pos hs]
    unfold prepareTempPath.prepareCleanup preparedEntries
    rfl
  · rintro rfl hb hbl n
    have hpre : tempPath.isPrefixOf (tempPath ++ [b]) = true :=
      List.isPrefixOf_iff_prefix.mpr (List.prefix_append tempPath [b])
    have hlast : lastName (tempPath ++ [b]) = b := List.getLastD_concat _ _ _
    induction n with
    | zero => simpa using hb
    | succ n ih =>
      rw [Function.iterate_succ_apply']
      exact (mem_preparedEntries _ _ _ _).mpr (Or.inr ⟨ih, Or.inr ⟨hbl, hpre, hlast.symm⟩⟩)

/-- C8 witness: the amended survivor set on a concrete managed listing
with the store a direct child of temp, surviving two prepare calls. -/
theorem preparedWorkspaceSurvivors_witness :
    (prepareTempPath true true [".help_chat_temp", "store.db", "junk", "program_debug.log"]
        ["t"] ["t", "store.db"]).1
      = Except.ok (preparedEntries [".help_chat_temp", "store.db", "junk", "program_debug.log"]
          ["t"] ["t", "store.db"]) ∧
    "store.db" ∈ (fun es => preparedEntries es ["t"] ["t", "store.db"])^[2]
        [".help_chat_temp", "store.db", "junk", "program_debug.log"] := by
  refine ⟨(preparedWorkspaceSurvivors _ _ _ "store.db" (by decide)).1, ?_⟩
  exact (preparedWorkspaceSurvivors _ _ _ "store.db" (by decide)).2.2 rfl (by decide) (by decide) 2

/-! ### Progress-callback timing (C4) -/

theorem cbHead_append (p : String) (t l2 : List Event) (h : cbHead p t = true) :
    cbHead p (t ++ l2) = true := by
  cases t with
  | nil => simp [cbHead] at h
  | cons e t2 => cases e <;> revert h <;> simp [cbHead]

theorem cbOk_append (l1 l2 : List Event) (h1 : cbOk l1 = true) (h2 : cbOk l2 = true) :
    cbOk (l1 ++ l2) = true := by
  induction l1 with
  | nil => simpa
  | cons e t ih =>
    cases e with
    | progressCallback p =>
      simp only [List.cons_append, cbOk, Bool.and_eq_true] at h1 ⊢
      exact ⟨cbHead_append p t l2 h1.1, ih h1.2⟩
    | removedMissing p =>
      simp only [List.cons_append, cbOk] at h1 ⊢; exact ih h1
    | warmupPools =>
      simp only [List.cons_append, cbOk] at h1 ⊢; exact ih h1
    | stagedInsert p =>
      simp only [List.cons_append, cbOk] at h1 ⊢; exact ih h1
    | stagedUpdate p =>
      simp only [List.cons_append, cbOk] at h1 ⊢; exact ih h1
    | skippedFile p =>
      simp only [List.cons_append, cbOk] at h1 ⊢; exact ih h1
    | noChanges p =>
      simp only [List.cons_append, cbOk] at h1 ⊢; exact ih h1

theorem cbOk_of_no_callback (l : List Event) (h : ∀ p, Event.progressCallback p ∉ l) :
    cbOk l = true := by
  induction l with
  | nil => rfl
  | cons e t ih =>
    have ht : ∀ p, Event.progressCallback p ∉ t :=
      fun p hp => h p (List.mem_cons_of_mem _ hp)
    cases e with
    | progressCallback p => exact absurd (List.mem_cons_self _ _) (h p)
    | removedMissing p => simp only [cbOk]; exact ih ht
    | warmupPools => simp only [cbOk]; exact ih ht
    | stagedInsert p => simp only [cbOk]; exact ih ht
    | stagedUpdate p => simp only [cbOk]; exact ih ht
    | skippedFile p => simp only [cbOk]; exact ih ht
    | noChanges p => simp only [cbOk]; exact ih ht

theorem cbOk_processFile (dh : List (String × String)) (gen : String → Option (List Nat))
    (ts : String → String) (f : String × String × String) :
    cbOk (processFile dh gen ts f).2 = true := by
  rcases processFile_events_cases dh gen ts f with h | h | h | h <;> rw [h] <;>
    simp [cbOk, cbHead]

theorem cbOk_concat_processFile (dh : List (String × String))
    (gen : String → Option (List Nat)) (ts : String → String)
    (fl : List (String × String × String)) :
    cbOk (concatMap (fun f => (processFile dh gen ts f).2) fl) = true := by
  induction fl with
  | nil => rfl
  | cons f t ih =>
    simp only [concatMap]
    exact cbOk_append _ _ (cbOk_processFile dh gen ts f) ih

theorem filterMap_callback_processFile (dh : List (String × String))
    (gen : String → Option (List Nat)) (ts : String → String) (f : String × String × String) :
    (processFile dh gen ts f).2.filterMap callbackPath
      = if successfullyIndexed dh gen f then [f.1] else [] := by
  unfold processFile successfullyIndexed
  rcases alookup f.1 dh with _ | dbh
  · rcases h2 : gen f.1 with _ | emb <;> simp [callbackPath, h2]
  · rcases h2 : gen f.1 with _ | emb <;> by_cases h3 : dbh ≠ f.2.1 <;>
      simp [callbackPath, h2, h3]

theorem filterMap_callback_concat (dh : List (String × String))
    (gen : String → Option (List Nat)) (ts : String → String)
    (fl : List (String × String × String)) :
    (concatMap (fun f => (processFile dh gen ts f).2) fl).filterMap callbackPath
      = (fl.filter (successfullyIndexed dh gen)).map (fun f => f.1) := by
  induction fl with
  | nil => rfl
  | cons f t ih =>
    simp only [concatMap, List.filterMap_append, ih, List.filter_cons,
      filterMap_callback_processFile]
    by_cases hP : successfullyIndexed dh gen f = true
    · simp [hP]
    · simp [hP]

theorem updateDatabase_events (db0 : DB) (fs0 : MdTree)
    (fl : List (String × String × String)) (gen : String → Option (List Nat))
    (ts : String → String) (resolve : String → PathC) (rootC : PathC) (commitOk : Bool) :
    (updateDatabase db0 fs0 fl gen ts resolve rootC commitOk).events
      = (removedPaths db0 fl).map Event.removedMissing
          ++ Event.warmupPools
          :: concatMap
              (fun f => (processFile (db0.map (fun e => (e.1, e.2.file_hash))) gen ts f).2) fl := by
  have h := stagedConn_eq db0 fl gen ts
  cases commitOk <;> simp [updateDatabase, h]

/-- C4 counterexample: in a run that successfully indexes one new file,
the progress callback event occurs before the staged insert statement,
not strictly after it. -/
theorem progressCallbackAfterStaging_counterexample :
    ¬ callbackAfterRowStaged ((updateDatabase [] ⟨[], []⟩ [("a", "h", ".txt")]
        (fun _ => some [1]) (fun _ => "T") (fun _ => []) [] true).events) := by
  intro hcl
  have hev : (updateDatabase [] ⟨[], []⟩ [("a", "h", ".txt")]
      (fun _ => some [1]) (fun _ => "T") (fun _ => []) [] true).events
      = [Event.warmupPools, Event.progressCallback "a", Event.stagedInsert "a"] := rfl
  rw [hev] at hcl
  obtain ⟨j, hj, hx⟩ := hcl 1 "a" rfl
  have hj0 : j = 0 := Nat.lt_one_iff.mp hj
  subst hj0
  rcases hx with hx | hx <;> simp at hx

/-- C4 (amended): the orchestrator invokes the progress callback with
each successfully (re)indexed file's path, in processing order,
immediately BEFORE that file's insert or update statement executes (and
before commit); the callback is never invoked for a skipped or unchanged
file. -/
theorem progressCallbackTiming (db0 : DB) (fs0 : MdTree)
    (fl : List (String × String × String)) (gen : String → Option (List Nat))
    (ts : String → String) (resolve : String → PathC) (rootC : PathC) (commitOk : Bool) :
    cbOk (updateDatabase db0 fs0 fl gen ts resolve rootC commitOk).events = true ∧
    (updateDatabase db0 fs0 fl gen ts resolve rootC commitOk).events.filterMap callbackPath
      = (fl.filter (successfullyIndexed (db0.map (fun e => (e.1, e.2.file_hash))) gen)).map
          (fun f => f.1) := by
  rw [updateDatabase_events]
  constructor
  · refine cbOk_append _ _ ?_ ?_
    · refine cbOk_of_no_callback _ ?_
      intro p hp
      rcases List.mem_map.mp hp with ⟨q, _, hq⟩
      exact Event.noConfusion hq
    · simp only [cbOk]
      exact cbOk_concat_processFile _ gen ts fl
  · rw [List.filterMap_append]
    have h1 : ((removedPaths db0 fl).map Event.removedMissing).filterMap callbackPath = [] := by
      rw [List.filterMap_map]
      exact List.filterMap_eq_nil_iff.mpr (fun p _ => rfl)
    rw [h1, List.filterMap_cons]
    simp only [callbackPath]
    rw [filterMap_callback_concat]
    rfl

/-! ### Row lookup under staged statements (C1, C3) -/

theorem alookup_filter_ne (db : DB) (p q : String) (hne : q ≠ p) :
    alookup p (db.filter (fun e => !(e.1 == q))) = alookup p db := by
  induction db with
  | nil => rfl
  | cons e t ih =>
    by_cases he : e.1 = q
    · rw [List.filter_cons]
      simp only [he, beq_self_eq_true, Bool.not_true, Bool.false_eq_true, if_false]
      rw [ih, alookup]
      rw [if_neg (by rw [he]; exact hne)]
    · rw [List.filter_cons]
      simp only [beq_eq_false_iff_ne, ne_eq, he, not_false_eq_true, Bool.not_eq_true',
        beq_eq_false_iff_ne, if_true, reduceIte]
      rw [alookup, alookup]
      by_cases hp : e.1 = p
      · rw [if_pos hp, if_pos hp]
      · rw [if_neg hp, if_neg hp, ih]

theorem alookup_filter_self (db : DB) (p : String) :
    alookup p (db.filter (fun e => !(e.1 == p))) = none := by
  induction db with
  | nil => rfl
  | cons e t ih =>
    rw [List.filter_cons]
    by_cases he : e.1 = p
    · simp only [he, beq_self_eq_true, Bool.not_true, Bool.false_eq_true, if_false]
      exact ih
    · simp only [beq_eq_false_iff_ne, ne_eq, he, not_false_eq_true, Bool.not_eq_true',
        reduceIte]
      rw [alookup, if_neg he]
      exact ih

theorem alookup_filter_none {β : Type} (db : List (String × β)) (p : String)
    (g : String × β → Bool) (h : alookup p db = none) :
    alookup p (db.filter g) = none := by
  induction db with
  | nil => rfl
  | cons e t ih =>
    rw [alookup] at h
    by_cases hp : e.1 = p
    · rw [if_pos hp] at h; exact Option.noConfusion h
    · rw [if_neg hp] at h
      rw [List.filter_cons]
      by_cases hg : g e = true
      · rw [if_pos hg, alookup, if_neg hp]; exact ih h
      · rw [if_neg hg]; exact ih h

theorem alookup_append_left_none {β : Type} (l1 l2 : List (String × β)) (p : String)
    (h : alookup p l1 = none) : alookup p (l1 ++ l2) = alookup p l2 := by
  induction l1 with
  | nil => rfl
  | cons e t ih =>
    rw [alookup] at h
    by_cases hp : e.1 = p
    · rw [if_pos hp] at h; exact Option.noConfusion h
    · rw [if_neg hp] at h
      rw [List.cons_append, alookup, if_neg hp]
      exact ih h

theorem alookup_append_singleton_ne (db : DB) (p q : String) (r : Row) (hne : q ≠ p) :
    alookup p (db ++ [(q, r)]) = alookup p db := by
  induction db with
  | nil => simp [alookup, hne]
  | cons e t ih =>
    rw [List.cons_append, alookup, alookup]
    by_cases hp : e.1 = p
    · rw [if_pos hp, if_pos hp]
    · rw [if_neg hp, if_neg hp, ih]

theorem alookup_map_update_self (db : DB) (p : String) (r x : Row)
    (h : alookup p db = some x) :
    alookup p (db.map (fun e => if e.1 = p then (p, r) else e)) = some r := by
  induction db with
  | nil => exact Option.noConfusion h
  | cons e t ih =>
    rw [alookup] at h
    rw [List.map_cons]
    by_cases hp : e.1 = p
    · rw [if_pos hp, alookup, if_pos rfl]
    · rw [if_neg hp] at h
      rw [if_neg hp, alookup, if_neg hp]
      exact ih h

theorem alookup_map_update_none (db : DB) (p : String) (r : Row)
    (h : alookup p db = none) :
    alookup p (db.map (fun e => if e.1 = p then (p, r) else e)) = none := by
  induction db with
  | nil => rfl
  | cons e t ih =>
    rw [alookup] at h
    by_cases hp : e.1 = p
    · rw [if_pos hp] at h; exact Option.noConfusion h
    · rw [if_neg hp] at h
      rw [List.map_cons, if_neg hp, alookup, if_neg hp]
      exact ih h

theorem alookup_map_update_ne (db : DB) (p q : String) (r : Row) (hne : q ≠ p) :
    alookup p (db.map (fun e => if e.1 = q then (q, r) else e)) = alookup p db := by
  induction db with
  | nil => rfl
  | cons e t ih =>
    rw [List.map_cons, alookup, alookup]
    by_cases hq : e.1 = q
    · rw [if_pos hq]
      rw [show ((q, r) : String × Row).1 = q from rfl]
      rw [if_neg hne, if_neg (by rw [hq]; exact hne), ih]
    · rw [if_neg hq]
      by_cases hp : e.1 = p
      · rw [if_pos hp, if_pos hp]
      · rw [if_neg hp, if_neg hp, ih]

theorem alookup_applyOp_ne (db : DB) (op : SqlOp) (p : String) (h : op.path ≠ p) :
    alookup p (applyOp db op) = alookup p db := by
  cases op with
  | deleteRow q => exact alookup_filter_ne db p q h
  | insertRow q r => exact alookup_append_singleton_ne db p q r h
  | updateRow q r => exact alookup_map_update_ne db p q r h

theorem alookup_foldl_applyOp_ne (ops : List SqlOp) (db : DB) (p : String)
    (h : ∀ op ∈ ops, op.path ≠ p) :
    alookup p (ops.foldl applyOp db) = alookup p db := by
  induction ops generalizing db with
  | nil => rfl
  | cons op t ih =>
    rw [List.foldl_cons, ih _ (fun o ho => h o (List.mem_cons_of_mem _ ho))]
    exact alookup_applyOp_ne db op p (h op (List.mem_cons_self _ _))

theorem alookup_applyOp_none (db : DB) (op : SqlOp) (p : String)
    (h : alookup p db = none) (hop : ∀ r, op ≠ SqlOp.insertRow p r) :
    alookup p (applyOp db op) = none := by
  cases op with
  | deleteRow q => exact alookup_filter_none db p _ h
  | insertRow q r =>
    by_cases hq : q = p
    · exact absurd (by rw [hq]) (hop r)
    · rw [applyOp, alookup_append_singleton_ne db p q r hq]; exact h
  | updateRow q r =>
    by_cases hq : q = p
    · subst hq; exact alookup_map_update_none db q r h
    · rw [applyOp, alookup_map_update_ne db p q r hq]; exact h

theorem alookup_foldl_applyOp_none (ops : List SqlOp) (db : DB) (p : String)
    (h : alookup p db = none) (hop : ∀ op ∈ ops, ∀ r, op ≠ SqlOp.insertRow p r) :
    alookup p (ops.foldl applyOp db) = none := by
  induction ops generalizing db with
  | nil => exact h
  | cons op t ih =>
    rw [List.foldl_cons]
    exact ih _ (alookup_applyOp_none db op p h (hop op (List.mem_cons_self _ _)))
      (fun o ho => hop o (List.mem_cons_of_mem _ ho))

theorem alookup_map_hash (db : DB) (p : String) :
    alookup p (db.map (fun e => (e.1, e.2.file_hash))) = (alookup p db).map Row.file_hash := by
  induction db with
  | nil => rfl
  | cons e t ih =>
    rw [List.map_cons, alookup, alookup]
    by_cases hp : e.1 = p
    · rw [if_pos hp, if_pos hp]; rfl
    · rw [if_neg hp, if_neg hp]; exact ih

theorem concatMap_append {α β : Type} (g : α → List β) (l1 l2 : List α) :
    concatMap g (l1 ++ l2) = concatMap g l1 ++ concatMap g l2 := by
  induction l1 with
  | nil => rfl
  | cons a t ih => simp [concatMap, ih]

theorem processFile_ops_cases (dh : List (String × String)) (gen : String → Option (List Nat))
    (ts : String → String) (f : String × String × String) :
    (processFile dh gen ts f).1 = [] ∨
    (∃ r, (processFile dh gen ts f).1 = [SqlOp.insertRow f.1 r]) ∨
    (∃ r, (processFile dh gen ts f).1 = [SqlOp.updateRow f.1 r]) := by
  unfold processFile
  rcases alookup f.1 dh with _ | dbh
  · rcases gen f.1 with _ | b <;> simp
  · rcases gen f.1 with _ | b <;> by_cases h3 : dbh ≠ f.2.1 <;> simp [h3]

theorem processFile_ops_path (dh : List (String × String)) (gen : String → Option (List Nat))
    (ts : String → String) (f : String × String × String) (op : SqlOp)
    (h : op ∈ (processFile dh gen ts f).1) : op.path = f.1 := by
  rcases processFile_ops_cases dh gen ts f with h0 | ⟨r, h0⟩ | ⟨r, h0⟩
  · rw [h0] at h; exact absurd h (List.not_mem_nil op)
  · rw [h0] at h; rw [List.mem_singleton.mp h]; rfl
  · rw [h0] at h; rw [List.mem_singleton.mp h]; rfl

theorem processFile_ops_of_gen_none (dh : List (String × String))
    (gen : String → Option (List Nat)) (ts : String → String) (f : String × String × String)
    (h : gen f.1 = none) : (processFile dh gen ts f).1 = [] := by
  unfold processFile
  rcases alookup f.1 dh with _ | dbh
  · simp [h]
  · by_cases h3 : dbh ≠ f.2.1 <;> simp [h, h3]

theorem processFile_ops_new (dh : List (String × String)) (gen : String → Option (List Nat))
    (ts : String → String) (f : String × String × String) (b : List Nat)
    (hdb : alookup f.1 dh = none) (hg : gen f.1 = some b) :
    (processFile dh gen ts f).1 = [SqlOp.insertRow f.1 ⟨f.2.1, b, ts f.1, f.2.2⟩] := by
  unfold processFile
  rw [hdb, hg]

theorem processFile_ops_changed (dh : List (String × String)) (gen : String → Option (List Nat))
    (ts : String → String) (f : String × String × String) (b : List Nat) (dbh : String)
    (hdb : alookup f.1 dh = some dbh) (hne : dbh ≠ f.2.1) (hg : gen f.1 = some b) :
    (processFile dh gen ts f).1 = [SqlOp.updateRow f.1 ⟨f.2.1, b, ts f.1, f.2.2⟩] := by
  unfold processFile
  rw [hdb]
  dsimp only
  rw [if_pos hne, hg]

theorem mem_removedPaths_iff (db0 : DB) (fl : List (String × String × String)) (p : String) :
    p ∈ removedPaths db0 fl ↔
      (p ∈ db0.map (fun e => e.1) ∧ p ∉ fl.map (fun f => f.1)) := by
  unfold removedPaths
  rw [List.mem_filter]
  simp

theorem updateDatabase_persisted (db0 : DB) (fs0 : MdTree)
    (fl : List (String × String × String)) (gen : String → Option (List Nat))
    (ts : String → String) (resolve : String → PathC) (rootC : PathC) :
    (updateDatabase db0 fs0 fl gen ts resolve rootC true).persisted
      = ((removedPaths db0 fl).map SqlOp.deleteRow
          ++ concatMap
              (fun f => (processFile (db0.map (fun e => (e.1, e.2.file_hash))) gen ts f).1) fl
        ).foldl applyOp db0 := by
  have h := stagedConn_eq db0 fl gen ts
  simp [updateDatabase, h]

theorem generateEmbedding_unsupported (w2 : FileWorld) (m : String)
    (hconv : w2.conv = ConvOutcome.unsupported m) : generateEmbedding w2 = none := by
  unfold generateEmbedding
  split
  · rfl
  · by_cases hf : w2.ext ∈ FAST_FORMATS <;> simp [hf, hconv]

theorem generateEmbedding_timeout (w2 : FileWorld)
    (hconv : w2.conv = ConvOutcome.timeout) : generateEmbedding w2 = none := by
  unfold generateEmbedding
  split
  · rfl
  · by_cases hf : w2.ext ∈ FAST_FORMATS <;> simp [hf, hconv]

theorem generateEmbedding_blank_text (w2 : FileWorld) (t : String)
    (hconv : w2.conv = ConvOutcome.success t) (ht : pyStrip t = "") :
    generateEmbedding w2 = none := by
  unfold generateEmbedding
  split
  · rfl
  · by_cases hf : w2.ext ∈ FAST_FORMATS <;> simp [hf, hconv, ht]

theorem generateEmbedding_oversized_archive (w2 : FileWorld)
    (hext : w2.ext ∈ ARCHIVE_EXTENSIONS)
    (hsz : w2.archiveSize.getD (MAX_ARCHIVE_SIZE_BYTES + 1) > MAX_ARCHIVE_SIZE_BYTES) :
    generateEmbedding w2 = none := by
  unfold generateEmbedding
  rw [if_pos ⟨hext, hsz⟩]

theorem generateEmbedding_enc_fail (w2 : FileWorld)
    (henc : w2.enc = EncOutcome.timeout ∨ ∃ m, w2.enc = EncOutcome.error m) :
    generateEmbedding w2 = none := by
  unfold generateEmbedding
  split
  · rfl
  · by_cases hf : w2.ext ∈ FAST_FORMATS <;>
      rcases hc : w2.conv with t | m | m | _ <;>
      simp [hf, hc] <;>
      by_cases ht : pyStrip t = "" <;>
      rcases henc with he | ⟨m2, he⟩ <;>
      simp [ht, he]

theorem alookup_updateDatabase_skipped (db0 : DB) (fs0 : MdTree)
    (fl : List (String × String × String)) (gen : String → Option (List Nat))
    (ts : String → String) (resolve : String → PathC) (rootC : PathC)
    (p h ext : String) (hnd : (fl.map (fun f => f.1)).Nodup)
    (hmem : (p, h, ext) ∈ fl) (hfail : gen p = none) :
    alookup p (updateDatabase db0 fs0 fl gen ts resolve rootC true).persisted
      = alookup p db0 := by
  have hscan : p ∈ fl.map (fun f => f.1) := List.mem_map.mpr ⟨(p, h, ext), hmem, rfl⟩
  rw [updateDatabase_persisted]
  apply alookup_foldl_applyOp_ne
  intro op hop
  rcases List.mem_append.mp hop with hop | hop
  · rcases List.mem_map.mp hop with ⟨x, hx, rfl⟩
    have hx2 := (mem_removedPaths_iff db0 fl x).mp hx
    simp only [SqlOp.path]
    exact fun hc => hx2.2 (by rw [hc]; exact hscan)
  · rcases (mem_concatMap _ _ _).mp hop with ⟨f, hf, hopf⟩
    rw [processFile_ops_path _ _ _ _ _ hopf]
    intro hfp
    have hfeq : f = (p, h, ext) := List.inj_on_of_nodup_map hnd hf hmem (by rw [hfp])
    rw [hfeq] at hopf
    rw [processFile_ops_of_gen_none _ _ _ _ hfail] at hopf
    exact absurd hopf (List.not_mem_nil op)

theorem alookup_updateDatabase_success (db0 : DB) (fs0 : MdTree)
    (l1 l2 : List (String × String × String)) (gen : String → Option (List Nat))
    (ts : String → String) (resolve : String → PathC) (rootC : PathC)
    (q hq eq2 : String) (b : List Nat)
    (hq1 : q ∉ l1.map (fun f => f.1)) (hq2 : q ∉ l2.map (fun f => f.1))
    (hgq : gen q = some b) :
    (alookup q db0 = none →
       alookup q (updateDatabase db0 fs0 (l1 ++ (q, hq, eq2) :: l2) gen ts resolve rootC
           true).persisted = some ⟨hq, b, ts q, eq2⟩) ∧
    (∀ r, alookup q db0 = some r → r.file_hash ≠ hq →
       alookup q (updateDatabase db0 fs0 (l1 ++ (q, hq, eq2) :: l2) gen ts resolve rootC
           true).persisted = some ⟨hq, b, ts q, eq2⟩) := by
  have hqscan : q ∈ (l1 ++ (q, hq, eq2) :: l2).map (fun f => f.1) := by simp
  have hcm : concatMap
        (fun f => (processFile (db0.map (fun e => (e.1, e.2.file_hash))) gen ts f).1)
        (l1 ++ (q, hq, eq2) :: l2)
      = concatMap
          (fun f => (processFile (db0.map (fun e => (e.1, e.2.file_hash))) gen ts f).1) l1
        ++ ((processFile (db0.map (fun e => (e.1, e.2.file_hash))) gen ts (q, hq, eq2)).1
            ++ concatMap
                (fun f => (processFile (db0.map (fun e => (e.1, e.2.file_hash))) gen ts f).1)
                l2) := by
    rw [concatMap_append]; rfl
  have hfin : (updateDatabase db0 fs0 (l1 ++ (q, hq, eq2) :: l2) gen ts resolve rootC
        true).persisted
      = ((processFile (db0.map (fun e => (e.1, e.2.file_hash))) gen ts (q, hq, eq2)).1
          ++ concatMap
              (fun f => (processFile (db0.map (fun e => (e.1, e.2.file_hash))) gen ts f).1) l2
        ).foldl applyOp
          (((removedPaths db0 (l1 ++ (q, hq, eq2) :: l2)).map SqlOp.deleteRow
            ++ concatMap
                (fun f => (processFile (db0.map (fun e => (e.1, e.2.file_hash))) gen ts f).1) l1
          ).foldl applyOp db0) := by
    rw [updateDatabase_persisted, hcm, ← List.append_assoc, List.foldl_append]
  have hAB : ∀ op ∈ (removedPaths db0 (l1 ++ (q, hq, eq2) :: l2)).map SqlOp.deleteRow
        ++ concatMap
            (fun f => (processFile (db0.map (fun e => (e.1, e.2.file_hash))) gen ts f).1) l1,
      op.path ≠ q := by
    intro op hop
    rcases List.mem_append.mp hop with hop | hop
    · rcases List.mem_map.mp hop with ⟨x, hx, rfl⟩
      have hx2 := (mem_removedPaths_iff _ _ _).mp hx
      simp only [SqlOp.path]
      exact fun hc => hx2.2 (by rw [hc]; exact hqscan)
    · rcases (mem_concatMap _ _ _).mp hop with ⟨f, hf, hopf⟩
      rw [processFile_ops_path _ _ _ _ _ hopf]
      exact fun hc => hq1 (List.mem_map.mpr ⟨f, hf, hc⟩)
  have hD : ∀ op ∈ concatMap
        (fun f => (processFile (db0.map (fun e => (e.1, e.2.file_hash))) gen ts f).1) l2,
      op.path ≠ q := by
    intro op hop
    rcases (mem_concatMap _ _ _).mp hop with ⟨f, hf, hopf⟩
    rw [processFile_ops_path _ _ _ _ _ hopf]
    exact fun hc => hq2 (List.mem_map.mpr ⟨f, hf, hc⟩)
  have hdb1 : alookup q
        (((removedPaths db0 (l1 ++ (q, hq, eq2) :: l2)).map SqlOp.deleteRow
          ++ concatMap
              (fun f => (processFile (db0.map (fun e => (e.1, e.2.file_hash))) gen ts f).1) l1
        ).foldl applyOp db0) = alookup q db0 :=
    alookup_foldl_applyOp_ne _ _ _ hAB
  constructor
  · intro hdb0
    have hdh : alookup q (db0.map (fun e => (e.1, e.2.file_hash))) = none := by
      rw [alookup_map_hash, hdb0]; rfl
    have hops := processFile_ops_new (db0.map (fun e => (e.1, e.2.file_hash))) gen ts
      (q, hq, eq2) b hdh hgq
    rw [hfin, hops, List.foldl_append, alookup_foldl_applyOp_ne _ _ _ hD]
    simp only [List.foldl_cons, List.foldl_nil, applyOp]
    rw [alookup_append_left_none _ _ _ (by rw [hdb1]; exact hdb0)]
    simp [alookup]
  · intro r hr hneq
    have hdh : alookup q (db0.map (fun e => (e.1, e.2.file_hash))) = some r.file_hash := by
      rw [alookup_map_hash, hr]; rfl
    have hops := processFile_ops_changed (db0.map (fun e => (e.1, e.2.file_hash))) gen ts
      (q, hq, eq2) b r.file_hash hdh hneq hgq
    rw [hfin, hops, List.foldl_append, alookup_foldl_applyOp_ne _ _ _ hD]
    simp only [List.foldl_cons, List.foldl_nil, applyOp]
    exact alookup_map_update_self _ q _ r (by rw [hdb1]; exact hr)

/-- C1: when `_generate_embedding` fails for a file (conversion failure
or timeout, unsupported format, empty or whitespace-only converted text,
oversized archive, or embedding failure or timeout), that file is
skipped: its previous vector-store row — hash, embedding, timestamp and
extension — is exactly what it was before the pass, and every other new
or changed file of the batch is still indexed with its fresh row. -/
theorem skippedFileKeepsPreviousRow (db0 : DB) (fs0 : MdTree)
    (fl : List (String × String × String)) (world : String → FileWorld)
    (ts : String → String) (resolve : String → PathC) (rootC : PathC)
    (p h ext : String) (hnd : (fl.map (fun f => f.1)).Nodup)
    (hmem : (p, h, ext) ∈ fl) (hfail : generateEmbedding (world p) = none) :
    alookup p (updateDatabase db0 fs0 fl (fun s => generateEmbedding (world s)) ts resolve
        rootC true).persisted = alookup p db0 ∧
    (∀ q hq eq2 b, (q, hq, eq2) ∈ fl → q ≠ p →
       generateEmbedding (world q) = some b →
       (alookup q db0 = none →
          alookup q (updateDatabase db0 fs0 fl (fun s => generateEmbedding (world s)) ts
              resolve rootC true).persisted = some ⟨hq, b, ts q, eq2⟩) ∧
       (∀ r, alookup q db0 = some r → r.file_hash ≠ hq →
          alookup q (updateDatabase db0 fs0 fl (fun s => generateEmbedding (world s)) ts
              resolve rootC true).persisted = some ⟨hq, b, ts q, eq2⟩)) ∧
    (∀ w2 m, w2.conv = ConvOutcome.unsupported m → generateEmbedding w2 = none) ∧
    (∀ w2, w2.conv = ConvOutcome.timeout → generateEmbedding w2 = none) ∧
    (∀ w2 t, w2.conv = ConvOutcome.success t → pyStrip t = "" → generateEmbedding w2 = none) ∧
    (∀ w2, w2.ext ∈ ARCHIVE_EXTENSIONS →
       w2.archiveSize.getD (MAX_ARCHIVE_SIZE_BYTES + 1) > MAX_ARCHIVE_SIZE_BYTES →
       generateEmbedding w2 = none) ∧
    (∀ w2, (w2.enc = EncOutcome.timeout ∨ ∃ m, w2.enc = EncOutcome.error m) →
       generateEmbedding w2 = none) := by
  refine ⟨alookup_updateDatabase_skipped db0 fs0 fl _ ts resolve rootC p h ext hnd hmem hfail,
          ?_, generateEmbedding_unsupported, generateEmbedding_timeout,
          generateEmbedding_blank_text, generateEmbedding_oversized_archive,
          generateEmbedding_enc_fail⟩
  intro q hq eq2 b hqmem hqp hgq
  obtain ⟨l1, l2, rfl⟩ := List.append_of_mem hqmem
  rw [List.map_append, List.map_cons] at hnd
  have hqnot : (q, hq, eq2).1 ∉ (l1.map (fun f => f.1) ++ l2.map (fun f => f.1)) :=
    (List.nodup_cons.mp (List.nodup_middle.mp hnd)).1
  exact alookup_updateDatabase_success db0 fs0 l1 l2 _ ts resolve rootC q hq eq2 b
    (fun hx => hqnot (List.mem_append.mpr (Or.inl hx)))
    (fun hx => hqnot (List.mem_append.mpr (Or.inr hx)))
    hgq

/-- C1 witness: a concrete batch where the first file's conversion
errors out (its old row is retained unchanged) while the second file is
still indexed. -/
theorem skippedFileKeepsPreviousRow_witness :
    alookup "p" (updateDatabase [("p", ⟨"h1", [0], "t0", ".txt"⟩)] ⟨[], []⟩
        [("p", "h2", ".txt"), ("q", "hq", ".txt")]
        (fun s => generateEmbedding (if s = "p" then
            ⟨".txt", none, ConvOutcome.error "boom", EncOutcome.success [1]⟩
          else ⟨".txt", none, ConvOutcome.success "hello", EncOutcome.success [2]⟩))
        (fun _ => "T") (fun _ => []) [] true).persisted
      = some ⟨"h1", [0], "t0", ".txt"⟩ ∧
    alookup "q" (updateDatabase [("p", ⟨"h1", [0], "t0", ".txt"⟩)] ⟨[], []⟩
        [("p", "h2", ".txt"), ("q", "hq", ".txt")]
        (fun s => generateEmbedding (if s = "p" then
            ⟨".txt", none, ConvOutcome.error "boom", EncOutcome.success [1]⟩
          else ⟨".txt", none, ConvOutcome.success "hello", EncOutcome.success [2]⟩))
        (fun _ => "T") (fun _ => []) [] true).persisted
      = some ⟨"hq", [2], "T", ".txt"⟩ := by
  have hmain := skippedFileKeepsPreviousRow [("p", ⟨"h1", [0], "t0", ".txt"⟩)] ⟨[], []⟩
    [("p", "h2", ".txt"), ("q", "hq", ".txt")]
    (fun s => if s = "p" then
        ⟨".txt", none, ConvOutcome.error "boom", EncOutcome.success [1]⟩
      else ⟨".txt", none, ConvOutcome.success "hello", EncOutcome.success [2]⟩)
    (fun _ => "T") (fun _ => []) [] "p" "h2" ".txt"
    (by decide) (by decide) (by decide)
  refine ⟨?_, ?_⟩
  · rw [hmain.1]; rfl
  · exact (hmain.2.1 "q" "hq" ".txt" [2] (by decide) (by decide) (by decide)).1 rfl

/-! ### Snapshot deletion and directory pruning (C3) -/

theorem rmdirTry_eq_some (d : PathC) (fs fs1 : MdTree) (h : rmdirTry d fs = some fs1) :
    fs1 = ⟨fs.files, fs.dirs.filter (fun e => !(e == d))⟩
      ∧ d ∈ fs.dirs ∧ isEmptyDir d fs = true := by
  unfold rmdirTry at h
  split at h
  next hcond =>
    injection h with h2
    exact ⟨h2.symm, hcond.1, hcond.2⟩
  next => exact Option.noConfusion h

theorem isEmptyDir_no_file (d : PathC) (fs : MdTree) (h : isEmptyDir d fs = true) :
    ∀ f ∈ fs.files, strictUnder d f = false := by
  rw [isEmptyDir, Bool.and_eq_true, List.all_eq_true, List.all_eq_true] at h
  intro f hf
  simpa using h.1 f hf

theorem isEmptyDir_no_dir (d : PathC) (fs : MdTree) (h : isEmptyDir d fs = true) :
    ∀ e ∈ fs.dirs, strictUnder d e = false := by
  rw [isEmptyDir, Bool.and_eq_true, List.all_eq_true, List.all_eq_true] at h
  intro e he
  simpa using h.2 e he

theorem mem_filter_ne_iff (l : List PathC) (x d : PathC) :
    x ∈ l.filter (fun e => !(e == d)) ↔ (x ∈ l ∧ x ≠ d) := by
  simp [List.mem_filter]

theorem prefix_dropLast_of_proper (e cur : PathC) (h : e <+: cur) (hne : e ≠ cur) :
    e <+: cur.dropLast := by
  refine List.prefix_of_prefix_length_le h (List.dropLast_prefix cur) ?_
  rw [List.length_dropLast]
  have hlt : e.length < cur.length :=
    Nat.lt_of_le_of_ne (List.IsPrefix.length_le h)
      (fun hc => hne (List.IsPrefix.eq_of_length h hc))
  omega

theorem pruneAux_files (n : Nat) : ∀ (cur : PathC) (fs : MdTree),
    (pruneAux n cur fs).files = fs.files := by
  induction n with
  | zero => intro cur fs; rfl
  | succ n ih =>
    intro cur fs
    simp only [pruneAux]
    by_cases hc : cur = []
    · rw [if_pos hc]
    · rw [if_neg hc]
      rcases hrm : rmdirTry cur fs with _ | fs1
      · rfl
      · obtain ⟨hfs1, _, _⟩ := rmdirTry_eq_some cur fs fs1 hrm
        rw [ih cur.dropLast fs1, hfs1]

theorem pruneAux_dirs_subset (n : Nat) : ∀ (cur : PathC) (fs : MdTree),
    ∀ d ∈ (pruneAux n cur fs).dirs, d ∈ fs.dirs := by
  induction n with
  | zero => intro cur fs d hd; exact hd
  | succ n ih =>
    intro cur fs d hd
    rw [pruneAux] at hd
    by_cases hc : cur = []
    · rw [if_pos hc] at hd; exact hd
    · rw [if_neg hc] at hd
      rcases hrm : rmdirTry cur fs with _ | fs1 <;> rw [hrm] at hd
      · exact hd
      · obtain ⟨hfs1, _, _⟩ := rmdirTry_eq_some cur fs fs1 hrm
        have := ih cur.dropLast fs1 d hd
        rw [hfs1] at this
        exact ((mem_filter_ne_iff _ _ _).mp this).1

theorem pruneAux_removed (n : Nat) : ∀ (cur : PathC) (fs : MdTree),
    ∀ d ∈ fs.dirs, d ∉ (pruneAux n cur fs).dirs →
      d ≠ [] ∧ d <+: cur ∧
      (∀ f ∈ fs.files, strictUnder d f = false) ∧
      (∀ e ∈ (pruneAux n cur fs).dirs, strictUnder d e = false) := by
  induction n with
  | zero => intro cur fs d hd hnd; exact absurd hd hnd
  | succ n ih =>
    intro cur fs d hd hnd
    rw [pruneAux] at hnd ⊢
    by_cases hc : cur = []
    · rw [if_pos hc] at hnd ⊢; exact absurd hd hnd
    · rw [if_neg hc] at hnd ⊢
      rcases hrm : rmdirTry cur fs with _ | fs1 <;> rw [hrm] at hnd
      · exact absurd hd hnd
      · obtain ⟨hfs1, hcur, hemp⟩ := rmdirTry_eq_some cur fs fs1 hrm
        by_cases hdc : d = cur
        · subst hdc
          refine ⟨hc, List.prefix_refl d, isEmptyDir_no_file d fs hemp, ?_⟩
          intro e he
          have he1 := pruneAux_dirs_subset n d.dropLast fs1 e he
          rw [hfs1] at he1
          exact isEmptyDir_no_dir d fs hemp e ((mem_filter_ne_iff _ _ _).mp he1).1
        · have hd1 : d ∈ fs1.dirs := by
            rw [hfs1]; exact (mem_filter_ne_iff _ _ _).mpr ⟨hd, hdc⟩
          obtain ⟨hne, hpre, hfiles, hdirs⟩ := ih cur.dropLast fs1 d hd1 hnd
          refine ⟨hne, List.IsPrefix.trans hpre (List.dropLast_prefix cur), ?_, hdirs⟩
          intro f hf
          apply hfiles
          rw [hfs1]
          exact hf

theorem pruneAux_chain (n : Nat) : ∀ (cur : PathC) (fs : MdTree),
    ∀ d ∈ fs.dirs, d ∉ (pruneAux n cur fs).dirs →
      ∀ e ∈ fs.dirs, d <+: e → e <+: cur → e ∉ (pruneAux n cur fs).dirs := by
  induction n with
  | zero => intro cur fs d hd hnd; exact absurd hd hnd
  | succ n ih =>
    intro cur fs d hd hnd e he hde hec
    rw [pruneAux] at hnd ⊢
    by_cases hc : cur = []
    · rw [if_pos hc] at hnd ⊢; exact absurd hd hnd
    · rw [if_neg hc] at hnd ⊢
      rcases hrm : rmdirTry cur fs with _ | fs1 <;> rw [hrm] at hnd
      · exact absurd hd hnd
      · obtain ⟨hfs1, hcur, hemp⟩ := rmdirTry_eq_some cur fs fs1 hrm
        by_cases hec2 : e = cur
        · subst hec2
          intro hmem
          have := pruneAux_dirs_subset n e.dropLast fs1 e hmem
          rw [hfs1] at this
          exact ((mem_filter_ne_iff _ _ _).mp this).2 rfl
        · have he1 : e ∈ fs1.dirs := by
            rw [hfs1]; exact (mem_filter_ne_iff _ _ _).mpr ⟨he, hec2⟩
          by_cases hdc : d = cur
          · subst hdc
            exact absurd (List.IsPrefix.eq_of_length hec
              (Nat.le_antisymm (List.IsPrefix.length_le hec)
                (List.IsPrefix.length_le hde))) hec2
          · have hd1 : d ∈ fs1.dirs := by
              rw [hfs1]; exact (mem_filter_ne_iff _ _ _).mpr ⟨hd, hdc⟩
            exact ih cur.dropLast fs1 d hd1 hnd e he1 hde
              (prefix_dropLast_of_proper e cur hec hec2)

theorem strictUnder_of_proper (d cur : PathC) (h : d <+: cur) (hne : d ≠ cur) :
    strictUnder d cur = true := by
  rw [strictUnder, Bool.and_eq_true]
  refine ⟨List.isPrefixOf_iff_prefix.mpr h, ?_⟩
  rw [decide_eq_true_eq]
  exact Nat.lt_of_le_of_ne (List.IsPrefix.length_le h)
    (fun hc => hne (List.IsPrefix.eq_of_length h hc))

theorem isEmptyDir_false_of_dir_under (d e : PathC) (fs : MdTree) (he : e ∈ fs.dirs)
    (hu : strictUnder d e = true) : isEmptyDir d fs = false := by
  by_contra hcon
  rw [Bool.not_eq_false] at hcon
  have h2 := isEmptyDir_no_dir d fs hcon e he
  rw [hu] at h2
  exact Bool.noConfusion h2

theorem rmdirTry_of_empty (cur : PathC) (fs : MdTree) (hin : cur ∈ fs.dirs)
    (hemp : isEmptyDir cur fs = true) :
    rmdirTry cur fs = some ⟨fs.files, fs.dirs.filter (fun e => !(e == cur))⟩ := by
  unfold rmdirTry
  rw [if_pos ⟨hin, hemp⟩]

theorem rmdirTry_of_not_empty (cur : PathC) (fs : MdTree)
    (hemp : isEmptyDir cur fs = false) : rmdirTry cur fs = none := by
  unfold rmdirTry
  rw [if_neg]
  intro hc
  rw [hemp] at hc
  exact Bool.noConfusion hc.2

theorem pruneEmptyMarkdownDirs_removes_cur (cur : PathC) (fs : MdTree)
    (hin : cur ∈ fs.dirs) (hemp : isEmptyDir cur fs = true) (hne : cur ≠ []) :
    cur ∉ (pruneEmptyMarkdownDirs cur fs).dirs := by
  obtain ⟨m, hm⟩ : ∃ m, cur.length = m + 1 := by
    cases hcur : cur with
    | nil => exact absurd hcur hne
    | cons a t => exact ⟨t.length, by simp⟩
  have hred : pruneAux (m + 1) cur fs
      = pruneAux m cur.dropLast ⟨fs.files, fs.dirs.filter (fun e => !(e == cur))⟩ := by
    rw [pruneAux, if_neg hne, rmdirTry_of_empty cur fs hin hemp]
  rw [pruneEmptyMarkdownDirs, hm, hred]
  intro hmem
  have h1 := pruneAux_dirs_subset m cur.dropLast _ cur hmem
  have h2 : cur ∈ fs.dirs.filter (fun e => !(e == cur)) := h1
  exact ((mem_filter_ne_iff _ _ _).mp h2).2 rfl

theorem pruneAux_removes_empty (n : Nat) : ∀ (cur : PathC) (fs : MdTree),
    cur.length ≤ n →
    (∀ e : PathC, e ≠ [] → e <+: cur → e ∈ fs.dirs) →
    ∀ d ∈ fs.dirs, d ≠ [] → d <+: cur →
      isEmptyDir d (pruneAux n cur fs) = true → d ∉ (pruneAux n cur fs).dirs := by
  induction n with
  | zero =>
    intro cur fs hlen hanc d hd hdne hdc hempf
    have hc : cur = [] := List.length_eq_zero.mp (Nat.le_zero.mp hlen)
    subst hc
    exact absurd (List.prefix_nil.mp hdc) hdne
  | succ n ih =>
    intro cur fs hlen hanc d hd hdne hdc hempf
    by_cases hc : cur = []
    · subst hc
      exact absurd (List.prefix_nil.mp hdc) hdne
    · have hcur : cur ∈ fs.dirs := hanc cur hc (List.prefix_refl cur)
      cases hemp : isEmptyDir cur fs with
      | false =>
        have hres : pruneAux (n + 1) cur fs = fs := by
          rw [pruneAux, if_neg hc, rmdirTry_of_not_empty cur fs hemp]
        rw [hres] at hempf ⊢
        by_cases hdcur : d = cur
        · subst hdcur
          rw [hempf] at hemp
          exact Bool.noConfusion hemp
        · have hu := strictUnder_of_proper d cur hdc hdcur
          have hfalse := isEmptyDir_false_of_dir_under d cur fs hcur hu
          rw [hempf] at hfalse
          exact Bool.noConfusion hfalse
      | true =>
        have hres : pruneAux (n + 1) cur fs
            = pruneAux n cur.dropLast ⟨fs.files, fs.dirs.filter (fun e => !(e == cur))⟩ := by
          rw [pruneAux, if_neg hc, rmdirTry_of_empty cur fs hcur hemp]
        rw [hres] at hempf ⊢
        by_cases hdcur : d = cur
        · subst hdcur
          intro hmem
          have h1 := pruneAux_dirs_subset n d.dropLast _ d hmem
          have h2 : d ∈ fs.dirs.filter (fun e => !(e == d)) := h1
          exact ((mem_filter_ne_iff _ _ _).mp h2).2 rfl
        · have hlen2 : cur.dropLast.length ≤ n := by
            rw [List.length_dropLast]
            omega
          have hanc2 : ∀ e : PathC, e ≠ [] → e <+: cur.dropLast →
              e ∈ fs.dirs.filter (fun x => !(x == cur)) := by
            intro e hene hepre
            refine (mem_filter_ne_iff _ _ _).mpr
              ⟨hanc e hene (List.IsPrefix.trans hepre (List.dropLast_prefix cur)), ?_⟩
            intro hecur
            subst hecur
            have h1 := List.IsPrefix.length_le hepre
            rw [List.length_dropLast] at h1
            have h2 : 0 < e.length := List.length_pos.mpr hene
            omega
          exact ih cur.dropLast _ hlen2 hanc2 d
            ((mem_filter_ne_iff _ _ _).mpr ⟨hd, hdcur⟩) hdne
            (prefix_dropLast_of_proper d cur hdc hdcur) hempf

theorem pruneEmptyMarkdownDirs_removes_empty_ancestors (cur : PathC) (fs : MdTree)
    (hanc : ∀ e : PathC, e ≠ [] → e <+: cur → e ∈ fs.dirs) :
    ∀ d ∈ fs.dirs, d ≠ [] → d <+: cur →
      isEmptyDir d (pruneEmptyMarkdownDirs cur fs) = true →
      d ∉ (pruneEmptyMarkdownDirs cur fs).dirs := by
  intro d hd h1 h2 h3
  exact pruneAux_removes_empty cur.length cur fs (Nat.le_refl _) hanc d hd h1 h2 h3

theorem deleteMarkdownSnapshot_files_not_mem (root src : PathC) (fs : MdTree) (x : PathC)
    (h : x ∉ fs.files) : x ∉ (deleteMarkdownSnapshot root src fs).files := by
  unfold deleteMarkdownSnapshot
  rcases deleteSnapshotRelPath root src with _ | snap
  · exact h
  · dsimp only
    by_cases hmem : snap ∈ fs.files
    · rw [if_pos hmem]
      rw [pruneEmptyMarkdownDirs, pruneAux_files]
      intro hx
      exact h ((mem_filter_ne_iff _ _ _).mp hx).1
    · rw [if_neg hmem]; exact h

theorem deleteMarkdownSnapshot_removes (root src : PathC) (fs : MdTree) (snap : PathC)
    (h : deleteSnapshotRelPath root src = some snap) :
    snap ∉ (deleteMarkdownSnapshot root src fs).files := by
  unfold deleteMarkdownSnapshot
  rw [h]
  dsimp only
  by_cases hmem : snap ∈ fs.files
  · rw [if_pos hmem]
    rw [pruneEmptyMarkdownDirs, pruneAux_files]
    intro hx
    exact ((mem_filter_ne_iff _ _ _).mp hx).2 rfl
  · rw [if_neg hmem]; exact hmem

theorem removal_fold_files_not_mem (resolve : String → PathC) (rootC : PathC)
    (l : List String) (x : PathC) :
    ∀ fs : MdTree, x ∉ fs.files →
      x ∉ (l.foldl (fun fs p => deleteMarkdownSnapshot rootC (resolve p) fs) fs).files := by
  induction l with
  | nil => intro fs h; exact h
  | cons p t ih =>
    intro fs h
    rw [List.foldl_cons]
    exact ih _ (deleteMarkdownSnapshot_files_not_mem rootC (resolve p) fs x h)

theorem removal_fold_snapshot_gone (resolve : String → PathC) (rootC : PathC)
    (l : List String) (fs0 : MdTree) (p : String) (snap : PathC) (hp : p ∈ l)
    (hres : deleteSnapshotRelPath rootC (resolve p) = some snap) :
    snap ∉ (l.foldl (fun fs q => deleteMarkdownSnapshot rootC (resolve q) fs) fs0).files := by
  obtain ⟨s, t, rfl⟩ := List.append_of_mem hp
  rw [List.foldl_append, List.foldl_cons]
  exact removal_fold_files_not_mem resolve rootC t snap _
    (deleteMarkdownSnapshot_removes rootC (resolve p) _ snap hres)

theorem updateDatabase_mdFS (db0 : DB) (fs0 : MdTree)
    (fl : List (String × String × String)) (gen : String → Option (List Nat))
    (ts : String → String) (resolve : String → PathC) (rootC : PathC) (commitOk : Bool) :
    (updateDatabase db0 fs0 fl gen ts resolve rootC commitOk).mdFS
      = (removedPaths db0 fl).foldl
          (fun fs p => deleteMarkdownSnapshot rootC (resolve p) fs) fs0 := by
  cases commitOk <;> simp [updateDatabase]

theorem alookup_updateDatabase_removed (db0 : DB) (fs0 : MdTree)
    (fl : List (String × String × String)) (gen : String → Option (List Nat))
    (ts : String → String) (resolve : String → PathC) (rootC : PathC) (p : String)
    (hdb : p ∈ db0.map (fun e => e.1)) (hnot : p ∉ fl.map (fun f => f.1)) :
    alookup p (updateDatabase db0 fs0 fl gen ts resolve rootC true).persisted = none := by
  have hp : p ∈ removedPaths db0 fl := (mem_removedPaths_iff db0 fl p).mpr ⟨hdb, hnot⟩
  obtain ⟨s, t, hsp⟩ := List.append_of_mem hp
  rw [updateDatabase_persisted, hsp, List.map_append, List.map_cons, List.append_assoc,
    List.cons_append, List.foldl_append, List.foldl_cons]
  apply alookup_foldl_applyOp_none
  · exact alookup_filter_self _ p
  · intro op hop r
    rcases List.mem_append.mp hop with hop | hop
    · rcases List.mem_map.mp hop with ⟨x, _, rfl⟩
      intro hcc
      exact SqlOp.noConfusion hcc
    · rcases (mem_concatMap _ _ _).mp hop with ⟨f, hf, hopf⟩
      intro hcc
      have hpath := processFile_ops_path _ _ _ _ _ hopf
      rw [hcc] at hpath
      exact hnot (List.mem_map.mpr ⟨f, hf, hpath.symm⟩)

theorem deleteSnapshotRelPath_of_inside (root source : PathC)
    (h : root.isPrefixOf source = true) :
    deleteSnapshotRelPath root source = some (snapshotRelPath root source) := by
  simp [snapshotRelPath, deleteSnapshotRelPath, h]

theorem deleteMarkdownSnapshot_of_outside (root source : PathC) (fs : MdTree)
    (h : root.isPrefixOf source = false) :
    deleteMarkdownSnapshot root source fs = fs := by
  unfold deleteMarkdownSnapshot
  rw [show deleteSnapshotRelPath root source = none by simp [deleteSnapshotRelPath, h]]

/-- C3 counterexample: a stored path lying outside the current root is
removed from the table, but its markdown snapshot — at the location the
write side uses — is left in place, because `_delete_markdown_snapshot`
returns early instead of applying the file-name fallback. -/
theorem removedSnapshotOutsideRoot_counterexample :
    alookup "/out/a.txt" (updateDatabase [("/out/a.txt", ⟨"h", [1], "t", ".txt"⟩)]
        ⟨[["a.txt.md"]], []⟩ [] (fun _ => none) (fun _ => "T")
        (fun _ => ["out", "a.txt"]) ["root"] true).persisted = none ∧
    snapshotRelPath ["root"] ["out", "a.txt"]
      ∈ (updateDatabase [("/out/a.txt", ⟨"h", [1], "t", ".txt"⟩)]
          ⟨[["a.txt.md"]], []⟩ [] (fun _ => none) (fun _ => "T")
          (fun _ => ["out", "a.txt"]) ["root"] true).mdFS.files := by
  decide

/-- C3 (amended): for every path with a row in the vector store that does
not appear in the fresh scan, the pass deletes that row; when the path
resolves inside root its markdown snapshot is deleted as well, and the
pruning walk removes only newly-emptied ancestor directories of the
snapshot, strictly below (never including) the markdown root, stopping at
the first non-empty directory; when the path resolves outside root, the
snapshot deletion is a no-op (only the row is removed).  The pruning is
moreover effective, not merely conservative: the starting directory (the
snapshot's parent), when present and empty, is itself removed, and
whenever every non-root ancestor of the starting directory exists, every
ancestor directory that is empty in the final tree has been removed — so
each newly-empty ancestor IS pruned, and only the first non-empty
directory and everything above it survive. -/
theorem removedFileRowAndSnapshotCleanup (db0 : DB) (fs0 : MdTree)
    (fl : List (String × String × String)) (gen : String → Option (List Nat))
    (ts : String → String) (resolve : String → PathC) (rootC : PathC) (p : String)
    (hdb : p ∈ db0.map (fun e => e.1)) (hnot : p ∉ fl.map (fun f => f.1)) :
    alookup p (updateDatabase db0 fs0 fl gen ts resolve rootC true).persisted = none ∧
    (rootC.isPrefixOf (resolve p) = true →
       snapshotRelPath rootC (resolve p)
         ∉ (updateDatabase db0 fs0 fl gen ts resolve rootC true).mdFS.files) ∧
    (rootC.isPrefixOf (resolve p) = false →
       ∀ fs, deleteMarkdownSnapshot rootC (resolve p) fs = fs) ∧
    (∀ (cur : PathC) (fs : MdTree),
       (pruneEmptyMarkdownDirs cur fs).files = fs.files ∧
       (∀ d ∈ (pruneEmptyMarkdownDirs cur fs).dirs, d ∈ fs.dirs) ∧
       (∀ d ∈ fs.dirs, d ∉ (pruneEmptyMarkdownDirs cur fs).dirs →
          d ≠ [] ∧ d <+: cur ∧
          (∀ f ∈ fs.files, strictUnder d f = false) ∧
          (∀ e ∈ (pruneEmptyMarkdownDirs cur fs).dirs, strictUnder d e = false)) ∧
       (∀ d ∈ fs.dirs, d ∉ (pruneEmptyMarkdownDirs cur fs).dirs →
          ∀ e ∈ fs.dirs, d <+: e → e <+: cur →
            e ∉ (pruneEmptyMarkdownDirs cur fs).dirs)) ∧
    (∀ (cur : PathC) (fs : MdTree), cur ∈ fs.dirs → isEmptyDir cur fs = true →
       cur ≠ [] → cur ∉ (pruneEmptyMarkdownDirs cur fs).dirs) ∧
    (∀ (cur : PathC) (fs : MdTree),
       (∀ e : PathC, e ≠ [] → e <+: cur → e ∈ fs.dirs) →
       ∀ d ∈ fs.dirs, d ≠ [] → d <+: cur →
         isEmptyDir d (pruneEmptyMarkdownDirs cur fs) = true →
         d ∉ (pruneEmptyMarkdownDirs cur fs).dirs) := by
  refine ⟨alookup_updateDatabase_removed db0 fs0 fl gen ts resolve rootC p hdb hnot,
          ?_, fun h fs => deleteMarkdownSnapshot_of_outside rootC (resolve p) fs h,
          fun cur fs => ⟨pruneAux_files _ _ _, pruneAux_dirs_subset _ _ _,
            pruneAux_removed _ _ _, pruneAux_chain _ _ _⟩,
          fun cur fs hin hemp hne => pruneEmptyMarkdownDirs_removes_cur cur fs hin hemp hne,
          fun cur fs hanc => pruneEmptyMarkdownDirs_removes_empty_ancestors cur fs hanc⟩
  intro h
  rw [updateDatabase_mdFS]
  exact removal_fold_snapshot_gone resolve rootC (removedPaths db0 fl) fs0 p _
    ((mem_removedPaths_iff db0 fl p).mpr ⟨hdb, hnot⟩)
    (deleteSnapshotRelPath_of_inside rootC (resolve p) h)

/-- C3 witness: a concrete removed file nested two directories deep inside
root has its row and its snapshot gone after the pass, and both
newly-emptied ancestor directories d1/d2 and d1 are pruned, leaving an
empty markdown tree; with a sibling file under d1 the walk removes d1/d2
but stops at the non-empty d1; the positive pruning conjuncts of the
theorem are applied to remove the emptied starting directory and its
emptied ancestor. -/
theorem removedFileRowAndSnapshotCleanup_witness :
    alookup "/r/d1/d2/a.txt" (updateDatabase [("/r/d1/d2/a.txt", ⟨"h", [1], "t", ".txt"⟩)]
        ⟨[["d1", "d2", "a.txt.md"]], [["d1"], ["d1", "d2"]]⟩ [] (fun _ => none) (fun _ => "T")
        (fun _ => ["r", "d1", "d2", "a.txt"]) ["r"] true).persisted = none ∧
    snapshotRelPath ["r"] ["r", "d1", "d2", "a.txt"]
      ∉ (updateDatabase [("/r/d1/d2/a.txt", ⟨"h", [1], "t", ".txt"⟩)]
          ⟨[["d1", "d2", "a.txt.md"]], [["d1"], ["d1", "d2"]]⟩ [] (fun _ => none) (fun _ => "T")
          (fun _ => ["r", "d1", "d2", "a.txt"]) ["r"] true).mdFS.files ∧
    (updateDatabase [("/r/d1/d2/a.txt", ⟨"h", [1], "t", ".txt"⟩)]
        ⟨[["d1", "d2", "a.txt.md"]], [["d1"], ["d1", "d2"]]⟩ [] (fun _ => none) (fun _ => "T")
        (fun _ => ["r", "d1", "d2", "a.txt"]) ["r"] true).mdFS = ⟨[], []⟩ ∧
    (updateDatabase [("/r/d1/d2/a.txt", ⟨"h", [1], "t", ".txt"⟩)]
        ⟨[["d1", "d2", "a.txt.md"], ["d1", "other.md"]], [["d1"], ["d1", "d2"]]⟩ []
        (fun _ => none) (fun _ => "T")
        (fun _ => ["r", "d1", "d2", "a.txt"]) ["r"] true).mdFS
      = ⟨[["d1", "other.md"]], [["d1"]]⟩ ∧
    ["d1", "d2"] ∉ (pruneEmptyMarkdownDirs ["d1", "d2"]
        ⟨[], [["d1"], ["d1", "d2"]]⟩).dirs ∧
    ["d1"] ∉ (pruneEmptyMarkdownDirs ["d1", "d2"]
        ⟨[], [["d1"], ["d1", "d2"]]⟩).dirs := by
  have h := removedFileRowAndSnapshotCleanup [("/r/d1/d2/a.txt", ⟨"h", [1], "t", ".txt"⟩)]
    ⟨[["d1", "d2", "a.txt.md"]], [["d1"], ["d1", "d2"]]⟩ [] (fun _ => none) (fun _ => "T")
    (fun _ => ["r", "d1", "d2", "a.txt"]) ["r"] "/r/d1/d2/a.txt" (by decide) (by decide)
  have hanc : ∀ e : PathC, e ≠ [] → e <+: ["d1", "d2"] →
      e ∈ ([["d1"], ["d1", "d2"]] : List PathC) := by
    intro e hene hepre
    obtain ⟨t, ht⟩ := hepre
    cases e with
    | nil => exact absurd rfl hene
    | cons a e2 =>
      rw [List.cons_append] at ht
      injection ht with h1 h2
      subst h1
      cases e2 with
      | nil => simp
      | cons b e3 =>
        rw [List.cons_append] at h2
        injection h2 with h3 h4
        subst h3
        have he3 : e3 = [] := by
          cases e3 with
          | nil => rfl
          | cons c e4 => exact absurd h4 (by simp)
        subst he3
        simp
  refine ⟨h.1, h.2.1 (by decide), by decide, by decide, ?_, ?_⟩
  · exact h.2.2.2.2.1 ["d1", "d2"] ⟨[], [["d1"], ["d1", "d2"]]⟩
      (by decide) (by decide) (by decide)
  · exact h.2.2.2.2.2 ["d1", "d2"] ⟨[], [["d1"], ["d1", "d2"]]⟩ hanc ["d1"]
      (by decide) (by decide) (by decide) (by decide)

/-! ### Excerpt loader (C10) -/

theorem rstripL_length_le (l : Chars) : (rstripL l).length ≤ l.length := by
  rw [rstripL, List.length_reverse]
  calc (l.reverse.dropWhile Char.isWhitespace).length
      ≤ l.reverse.length := List.Sublist.length_le (List.dropWhile_sublist _)
    _ = l.length := List.length_reverse l

theorem finalCapL_length (limit : Nat) (e : Chars) :
    (finalCapL limit e).length ≤ limit + 1 := by
  unfold finalCapL
  split
  next hgt =>
    rw [List.length_append]
    have h1 : (rstripL (e.take limit)).length ≤ limit :=
      Nat.le_trans (rstripL_length_le _)
        (by rw [List.length_take]; exact Nat.min_le_left _ _)
    simpa using Nat.add_le_add_right h1 1
  next hle => omega

theorem rstripL_head (c : Char) (l : Chars) (hc : c.isWhitespace = false) :
    (rstripL (c :: l)).head? = some c := by
  rw [rstripL, List.reverse_cons, List.dropWhile_append]
  split
  next =>
    rw [List.dropWhile_cons]
    simp [hc]
  next =>
    rw [List.reverse_append]
    simp

theorem stripL_head (c : Char) (l : Chars) (hc : c.isWhitespace = false) :
    (stripL (c :: l)).head? = some c := by
  have h1 : (c :: l).dropWhile Char.isWhitespace = c :: l := by
    rw [List.dropWhile_cons]; simp [hc]
  show (((c :: l).dropWhile Char.isWhitespace).reverse.dropWhile Char.isWhitespace).reverse.head?
      = some c
  rw [h1]
  exact rstripL_head c l hc

theorem rstripL_concat (x : Chars) (c : Char) (hc : c.isWhitespace = false) :
    rstripL (x ++ [c]) = x ++ [c] := by
  rw [rstripL, List.reverse_append]
  show ((c :: x.reverse).dropWhile Char.isWhitespace).reverse = _
  rw [List.dropWhile_cons]
  simp [hc]

theorem stripL_getLast (l : Chars) (c : Char) (hc : c.isWhitespace = false) :
    (stripL (l ++ [c])).getLast? = some c := by
  show (((l ++ [c]).dropWhile Char.isWhitespace).reverse.dropWhile
      Char.isWhitespace).reverse.getLast? = some c
  rw [List.dropWhile_append]
  split
  next =>
    rw [List.dropWhile_cons]
    simp [hc]
  next =>
    have h2 := rstripL_concat (List.dropWhile Char.isWhitespace l) c hc
    rw [rstripL] at h2
    rw [h2]
    exact List.getLast?_concat _

theorem finalCapL_head (limit : Nat) (e : Chars) (hl : 0 < limit)
    (hh : e.head? = some '…') : (finalCapL limit e).head? = some '…' := by
  unfold finalCapL
  split
  next hgt =>
    obtain ⟨tail, rfl⟩ : ∃ tail, e = '…' :: tail := by
      cases e with
      | nil => simp at hh
      | cons a t => simp at hh; exact ⟨t, by rw [hh]⟩
    obtain ⟨m, rfl⟩ : ∃ m, limit = m + 1 := ⟨limit - 1, by omega⟩
    rw [List.take_succ_cons]
    have h2 := rstripL_head '…' (tail.take m) (by decide)
    rcases h3 : rstripL ('…' :: tail.take m) with _ | ⟨b, t2⟩
    · rw [h3] at h2; simp at h2
    · rw [h3] at h2
      simp only [List.head?_cons, Option.some.injEq] at h2
      rw [List.cons_append, List.head?_cons, h2]
  next => exact hh

theorem finalCapL_getLast (limit : Nat) (e : Chars)
    (hh : e.getLast? = some '…') : (finalCapL limit e).getLast? = some '…' := by
  unfold finalCapL
  split
  next => exact List.getLast?_concat _
  next => exact hh

theorem windowExcerpt_starts_ellipsis (normalized : Chars) (idx half : Nat)
    (hs : 0 < idx - half) :
    ∃ w, windowExcerpt normalized idx half = '…' :: w := by
  simp only [windowExcerpt]
  rw [if_pos hs]
  split
  next => exact ⟨_, List.cons_append _ _ _⟩
  next => exact ⟨_, rfl⟩

theorem windowExcerpt_ends_ellipsis (normalized : Chars) (idx half : Nat)
    (he : idx + half < normalized.length) :
    ∃ w, windowExcerpt normalized idx half = w ++ ['…'] := by
  simp only [windowExcerpt]
  have hmin : min normalized.length (idx + half) < normalized.length :=
    Nat.lt_of_le_of_lt (Nat.min_le_right _ _) he
  rw [if_pos hmin]
  split
  next => exact ⟨_, rfl⟩
  next => exact ⟨_, rfl⟩

theorem mem_queryKeywords_ne_nil (q k : Chars) (h : k ∈ queryKeywords q) : k ≠ [] := by
  rw [queryKeywords, List.mem_filter] at h
  intro hk
  rw [hk] at h
  simp at h

theorem findSub_nil_of_ne (k : Chars) (h : k ≠ []) : findSub k [] = none := by
  rw [findSub, findSubAux]
  cases k with
  | nil => exact absurd rfl h
  | cons a t => rfl

theorem firstKeywordMatch_nil (kws : List Chars) (h : ∀ k ∈ kws, k ≠ []) :
    firstKeywordMatch kws [] = none := by
  induction kws with
  | nil => rfl
  | cons k t ih =>
    rw [firstKeywordMatch, findSub_nil_of_ne k (h k (List.mem_cons_self _ _))]
    exact ih (fun x hx => h x (List.mem_cons_of_mem _ hx))

theorem loadMarkdownExcerpt_match_none (rawText query : Chars) (limit : Nat)
    (h : firstKeywordMatch (queryKeywords query)
        ((normalizeCRLF (stripL rawText)).map Char.toLower) = none) :
    loadMarkdownExcerpt rawText query limit
      = finalCapL limit (stripL ((normalizeCRLF (stripL rawText)).take (limit * 2))) := by
  simp only [loadMarkdownExcerpt]
  by_cases htext : stripL rawText = []
  · rw [if_pos htext, htext]
    show ([] : Chars) = finalCapL limit (stripL ((normalizeCRLF []).take (limit * 2)))
    rw [show normalizeCRLF [] = [] from rfl]
    simp [stripL, finalCapL]
  · rw [if_neg htext, h]

theorem loadMarkdownExcerpt_match_some (rawText query : Chars) (limit idx : Nat)
    (h : firstKeywordMatch (queryKeywords query)
        ((normalizeCRLF (stripL rawText)).map Char.toLower) = some idx) :
    loadMarkdownExcerpt rawText query limit
      = finalCapL limit (stripL
          (windowExcerpt (normalizeCRLF (stripL rawText)) idx (max (limit / 2) 1))) := by
  simp only [loadMarkdownExcerpt]
  by_cases htext : stripL rawText = []
  · rw [htext] at h
    rw [show normalizeCRLF [] = [] from rfl, List.map_nil] at h
    rw [firstKeywordMatch_nil (queryKeywords query) (mem_queryKeywords_ne_nil query)] at h
    exact Option.noConfusion h
  · rw [if_neg htext, h]

/-- C10 counterexample: on a 1600-character whitespace-free text with no
query keyword, with the default limit 1500 the loader does not return the
first `2*limit` characters (the whole text): the final cap truncates the
excerpt to the first 1500 characters plus an ellipsis. -/
theorem excerptCap_counterexample :
    loadMarkdownExcerpt (List.replicate 1600 'a') [] 1500
        = List.replicate 1500 'a' ++ ['…'] ∧
    (List.replicate 1600 'a').take (1500 * 2) = List.replicate 1600 'a' ∧
    List.replicate 1500 'a' ++ ['…'] ≠ List.replicate 1600 'a' := by
  have hdw : ∀ m : Nat,
      (List.replicate m 'a').dropWhile Char.isWhitespace = List.replicate m 'a' := by
    intro m
    cases m with
    | zero => rfl
    | succ k => rw [List.replicate_succ, List.dropWhile_cons]; simp
  have hstrip : ∀ n : Nat, stripL (List.replicate n 'a') = List.replicate n 'a' := by
    intro n
    rw [stripL, hdw, List.reverse_replicate, hdw, List.reverse_replicate]
  have hnorm : ∀ n : Nat, normalizeCRLF (List.replicate n 'a') = List.replicate n 'a' := by
    intro n
    induction n with
    | zero => rfl
    | succ k ih => rw [List.replicate_succ]; simp [normalizeCRLF, ih]
  have hrstrip : ∀ n : Nat, 0 < n →
      rstripL (List.replicate n 'a') = List.replicate n 'a' := by
    intro n hn
    obtain ⟨m, rfl⟩ : ∃ m, n = m + 1 := ⟨n - 1, by omega⟩
    rw [List.replicate_succ', rstripL_concat _ _ (by decide), ← List.replicate_succ']
  refine ⟨?_, ?_, ?_⟩
  · rw [loadMarkdownExcerpt_match_none _ _ _ (by rfl)]
    rw [hstrip, hnorm, List.take_replicate]
    rw [show min (1500 * 2) 1600 = 1600 by decide]
    rw [hstrip]
    unfold finalCapL
    rw [List.length_replicate, if_pos (by norm_num), List.take_replicate]
    rw [show min 1500 1600 = 1500 by decide]
    rw [hrstrip 1500 (by norm_num)]
  · rw [List.take_replicate, show min (1500 * 2) 1600 = 1600 by decide]
  · intro hcc
    have h2 := congrArg List.length hcc
    rw [List.length_append, List.length_replicate, List.length_replicate] at h2
    simp at h2

/-- C10 (amended): the excerpt loader normalizes line endings and
extracts keywords as word tokens longer than 3 characters; when no
keyword occurs it takes the first `2*limit` characters, and when a
keyword is found it takes a window of half-width `max(limit/2, 1)`
centered on the first occurrence with an ellipsis at each truncated
edge; in BOTH cases the excerpt is then stripped and capped: anything
longer than `limit` becomes its first `limit` characters, right-stripped,
with a trailing ellipsis, so the result never exceeds `limit + 1`
characters (and for a keyword-free text longer than `limit` the result
is not the first `2*limit` characters). -/
theorem excerptWindowAndCap (rawText query : Chars) (limit : Nat) :
    (loadMarkdownExcerpt rawText query limit).length ≤ limit + 1 ∧
    (firstKeywordMatch (queryKeywords query)
        ((normalizeCRLF (stripL rawText)).map Char.toLower) = none →
      loadMarkdownExcerpt rawText query limit
        = finalCapL limit (stripL ((normalizeCRLF (stripL rawText)).take (limit * 2)))) ∧
    (∀ idx, firstKeywordMatch (queryKeywords query)
        ((normalizeCRLF (stripL rawText)).map Char.toLower) = some idx →
      loadMarkdownExcerpt rawText query limit
        = finalCapL limit (stripL
            (windowExcerpt (normalizeCRLF (stripL rawText)) idx (max (limit / 2) 1))) ∧
      (0 < limit → 0 < idx - max (limit / 2) 1 →
        (loadMarkdownExcerpt rawText query limit).head? = some '…') ∧
      (idx + max (limit / 2) 1 < (normalizeCRLF (stripL rawText)).length →
        (loadMarkdownExcerpt rawText query limit).getLast? = some '…')) := by
  refine ⟨?_, fun h => loadMarkdownExcerpt_match_none rawText query limit h,
          fun idx h => ?_⟩
  · rcases hm : firstKeywordMatch (queryKeywords query)
        ((normalizeCRLF (stripL rawText)).map Char.toLower) with _ | idx
    · rw [loadMarkdownExcerpt_match_none rawText query limit hm]
      exact finalCapL_length _ _
    · rw [loadMarkdownExcerpt_match_some rawText query limit idx hm]
      exact finalCapL_length _ _
  · refine ⟨loadMarkdownExcerpt_match_some rawText query limit idx h,
            fun hl hs => ?_, fun he => ?_⟩
    · rw [loadMarkdownExcerpt_match_some rawText query limit idx h]
      obtain ⟨w, hw⟩ := windowExcerpt_starts_ellipsis (normalizeCRLF (stripL rawText))
        idx (max (limit / 2) 1) hs
      rw [hw]
      exact finalCapL_head limit _ hl (stripL_head '…' w (by decide))
    · rw [loadMarkdownExcerpt_match_some rawText query limit idx h]
      obtain ⟨w, hw⟩ := windowExcerpt_ends_ellipsis (normalizeCRLF (stripL rawText))
        idx (max (limit / 2) 1) he
      rw [hw]
      exact finalCapL_getLast limit _ (stripL_getLast w '…' (by decide))

/-- C10 witness: a concrete keyword match with both edges truncated at
limit 4: the excerpt is the capped window with an ellipsis at each
edge. -/
theorem excerptWindowAndCap_witness :
    loadMarkdownExcerpt "aaaa hello bbbb".toList "hello".toList 4 = "…a h…".toList ∧
    (loadMarkdownExcerpt "aaaa hello bbbb".toList "hello".toList 4).head? = some '…' ∧
    (loadMarkdownExcerpt "aaaa hello bbbb".toList "hello".toList 4).getLast? = some '…' ∧
    (loadMarkdownExcerpt "aaaa hello bbbb".toList "hello".toList 4).length ≤ 5 := by
  have h := excerptWindowAndCap "aaaa hello bbbb".toList "hello".toList 4
  have hs := h.2.2 5 (by decide)
  refine ⟨?_, hs.2.1 (by decide) (by decide), hs.2.2 (by decide), h.1⟩
  rw [hs.1]
  decide

end HelpChat
